import Mathlib

/-!
Verification of the bin2const formatting library.

The Rust sources (src/library.rs and src/main.rs) are shallowly embedded
below: bytes are natural numbers below 256 (the u8 range), byte sequences
are lists, the formatting loops become structural recursions carrying the
loop indices, and the dispatcher in main becomes a total function into
Option (none models the unrecognized-format early return).
-/

set_option maxRecDepth 100000

namespace Bin2Const

/-- The indentation block: tab_size space characters, as produced by
repeating a one-space string tab_size times in the source. -/
def spaces (n : Nat) : String := String.mk (List.replicate n ' ')

/-- Two lowercase hex digits of a byte, as the Rust 02x format of a u8.
The value is reduced mod 256, which is the identity on byte values. -/
def hex2 (b : Nat) : String :=
  String.mk [Nat.digitChar (b % 256 / 16), Nat.digitChar (b % 16)]

/-- Digit string of a natural number in a given base, most significant
digit first, written with explicit fuel so that the definition is a
structural recursion the kernel can evaluate. The fuel only needs to
dominate the number of digits; callers pass n itself. -/
def digitsAux (base : Nat) : Nat → Nat → List Char
  | 0, n => [Nat.digitChar n]
  | fuel + 1, n =>
    if n < base then [Nat.digitChar n]
    else digitsAux base fuel (n / base) ++ [Nat.digitChar (n % base)]

/-- Digit string of n in the given base, most significant digit first, no
leading zeros (one digit for 0). -/
def digitsBase (base n : Nat) : List Char := digitsAux base n n

/-- Lowercase hexadecimal digit string of a natural number. -/
def hexChars (n : Nat) : List Char := digitsBase 16 n

/-- The row offset as the Rust 08x format: hexadecimal, zero padded on the
left to a minimum width of 8 digits. -/
def hex8 (n : Nat) : String :=
  String.mk (List.replicate (8 - (hexChars n).length) '0' ++ hexChars n)

/-- Binary digit string of a natural number, most significant digit first. -/
def binChars (n : Nat) : List Char := digitsBase 2 n

/-- A byte as the Rust 08b format of a u8: binary, zero padded on the left
to a minimum width of 8 digits. -/
def bin8 (b : Nat) : String :=
  String.mk (List.replicate (8 - (binChars (b % 256)).length) '0' ++ binChars (b % 256))

/-- Decimal digit string of a natural number, as the Rust default Display
format of an unsigned integer. -/
def decChars (n : Nat) : List Char := digitsBase 10 n

/-- Decimal rendering of a natural number as a string. -/
def decString (n : Nat) : String := String.mk (decChars n)

/-! ## Dump formatters (binary_to_hex, binary_to_binary) -/

/-- One byte slot of a hex dump row: the byte at index i + j as two hex
digits and a space when present, three spaces when absent, plus the extra
group space after every fourth slot. -/
def hexSlot (B : List Nat) (i j : Nat) : String :=
  (if i + j < B.length then hex2 (B.getD (i + j) 0) ++ " " else "   ") ++
    (if j % 4 == 3 then " " else "")

/-- One character of the ASCII column: the byte rendered as itself when in
the printable range 0x20 to 0x7e, a dot for other present bytes, and a
space for absent slots. -/
def asciiSlot (B : List Nat) (i j : Nat) : String :=
  if i + j < B.length then
    (if 0x20 ≤ B.getD (i + j) 0 ∧ B.getD (i + j) 0 ≤ 0x7e then
      String.singleton (Char.ofNat (B.getD (i + j) 0))
     else ".")
  else " "

/-- Everything of a hex dump row after the offset and its two spaces:
sixteen byte slots, the separator, the sixteen character ASCII column, and
the closing pipe and newline. -/
def hexRowRest (B : List Nat) (i : Nat) : String :=
  String.join ((List.range 16).map (hexSlot B i)) ++ " |" ++
    String.join ((List.range 16).map (asciiSlot B i)) ++ "|\n"

/-- One full hex dump row starting at byte index i. -/
def hexRow (B : List Nat) (i : Nat) : String := hex8 i ++ "  " ++ hexRowRest B i

/-- The row-emitting while loop shared by the two dump formatters, with
explicit fuel so that the definition is a structural recursion: emit the
row at i, i + 16, ... while i is below len. The fuel only needs to
dominate the number of remaining rows. -/
def rowsAux (row : Nat → String) (len : Nat) : Nat → Nat → String
  | 0, _ => ""
  | fuel + 1, i => if i < len then row i ++ rowsAux row len fuel (i + 16) else ""

/-- The row-emitting while loop entered at byte index i. -/
def rowsFrom (row : Nat → String) (len i : Nat) : String := rowsAux row len (len - i) i

/-- The while loop of binary_to_hex, entered at byte index i. -/
def hexRowsFrom (B : List Nat) (i : Nat) : String := rowsFrom (hexRow B) B.length i

/-- Embedding of binary_to_hex from src/library.rs. -/
def binary_to_hex (B : List Nat) : String := hexRowsFrom B 0

/-- One byte slot of a binary dump row: eight binary digits and a space when
present, nine spaces when absent, plus the group space after every fourth
slot. -/
def binSlot (B : List Nat) (i j : Nat) : String :=
  (if i + j < B.length then bin8 (B.getD (i + j) 0) ++ " " else "         ") ++
    (if j % 4 == 3 then " " else "")

/-- Everything of a binary dump row after the offset and its two spaces. -/
def binRowRest (B : List Nat) (i : Nat) : String :=
  String.join ((List.range 16).map (binSlot B i)) ++ " |" ++
    String.join ((List.range 16).map (asciiSlot B i)) ++ "|\n"

/-- One full binary dump row starting at byte index i. -/
def binRow (B : List Nat) (i : Nat) : String := hex8 i ++ "  " ++ binRowRest B i

/-- The while loop of binary_to_binary, entered at byte index i. -/
def binRowsFrom (B : List Nat) (i : Nat) : String := rowsFrom (binRow B) B.length i

/-- Embedding of binary_to_binary from src/library.rs. -/
def binary_to_binary (B : List Nat) : String := binRowsFrom B 0

/-! ## Source-constant formatters

The eight constant formatters share one enumerated loop in the source.
Seven of them (all but the define variant) use the identical body: emit the
byte as a 0x literal, a comma separator unless this is the last byte, and
the indentation block followed by a newline after every sixteenth byte.
The recursion below carries the enumeration index i. -/

/-- The shared enumerated loop body of the seven array-style constant
formatters, started with the full list and i = 0; len is the total length
of the byte sequence. -/
def constLoopBody (len t : Nat) : List Nat → Nat → String
  | [], _ => ""
  | b :: rest, i =>
    "0x" ++ hex2 b ++ (if i < len - 1 then ", " else "") ++
      (if i % 16 == 15 then spaces t ++ "\n" else "") ++
      constLoopBody len t rest (i + 1)

/-- Embedding of binary_to_c_const from src/library.rs. -/
def binary_to_c_const (B : List Nat) (name : String) (tab_size : Nat) : String :=
  "const unsigned char " ++ name ++ "[] = \x7b\n" ++ spaces tab_size ++
    constLoopBody B.length tab_size B 0 ++ "\n\x7d;\n"

/-- Embedding of binary_to_rust_const from src/library.rs. -/
def binary_to_rust_const (B : List Nat) (name : String) (tab_size : Nat) : String :=
  "const " ++ name ++ ": [u8; " ++ decString B.length ++ "] = [\n" ++ spaces tab_size ++
    constLoopBody B.length tab_size B 0 ++ "\n];\n"

/-- Embedding of binary_to_python_const from src/library.rs. -/
def binary_to_python_const (B : List Nat) (name : String) (tab_size : Nat) : String :=
  name ++ " = bytes([\n" ++ spaces tab_size ++
    constLoopBody B.length tab_size B 0 ++ "\n])\n"

/-- Embedding of binary_to_csharp_const from src/library.rs. -/
def binary_to_csharp_const (B : List Nat) (name : String) (tab_size : Nat) : String :=
  "public static readonly byte[] " ++ name ++ " = new byte[] \x7b\n" ++ spaces tab_size ++
    constLoopBody B.length tab_size B 0 ++ "\n\x7d;\n"

/-- Embedding of binary_to_javascript_const from src/library.rs. -/
def binary_to_javascript_const (B : List Nat) (name : String) (tab_size : Nat) : String :=
  "const " ++ name ++ " = new Uint8Array([\n" ++ spaces tab_size ++
    constLoopBody B.length tab_size B 0 ++ "\n]);\n"

/-- Embedding of binary_to_go_const from src/library.rs. -/
def binary_to_go_const (B : List Nat) (name : String) (tab_size : Nat) : String :=
  "var " ++ name ++ " = []byte\x7b\n" ++ spaces tab_size ++
    constLoopBody B.length tab_size B 0 ++ "\n\x7d\n"

/-- Embedding of binary_to_java_const from src/library.rs. -/
def binary_to_java_const (B : List Nat) (name : String) (tab_size : Nat) : String :=
  "public static final byte[] " ++ name ++ " = new byte[] \x7b\n" ++ spaces tab_size ++
    constLoopBody B.length tab_size B 0 ++ "\n\x7d;\n"

/-- The enumerated loop of binary_to_c_define. The source keeps a running
count that always equals i + 1 at the wrap test, and a line_start flag that
is cleared after each wrap so that the next byte emits the line prefix. -/
def defineLoopBody (len t : Nat) : List Nat → Nat → Bool → String
  | [], _, _ => ""
  | b :: rest, i, line_start =>
    let wrap : Bool := (i + 1) % 8 == 0 && decide (i < len - 1)
    (if line_start then "" else spaces t ++ "    ") ++
      "0x" ++ hex2 b ++
      (if i < len - 1 then ", " else "") ++
      (if wrap then "\\\n" else "") ++
      defineLoopBody len t rest (i + 1) (!wrap)

/-- Embedding of binary_to_c_define from src/library.rs. -/
def binary_to_c_define (B : List Nat) (name : String) (tab_size : Nat) : String :=
  "#define " ++ name ++ "_SIZE " ++ decString B.length ++ "\n" ++
    "#define " ++ name ++ " \x7b" ++
    defineLoopBody B.length tab_size B 0 false ++ "\x7d\n"

/-! ## The dispatcher of src/main.rs -/

/-- ASCII lowercasing of one character, as Rust to_ascii_lowercase: the
code points 65 to 90 are the ASCII uppercase letters, shifted by 32 to the
corresponding lowercase letters. -/
def asciiLower (c : Char) : Char :=
  if 65 ≤ c.toNat ∧ c.toNat ≤ 90 then Char.ofNat (c.toNat + 32) else c

/-- The code points of the Unicode White_Space property, the set used by
the Rust str trim method. -/
def rustWhitespaceCodes : List Nat :=
  [0x09, 0x0A, 0x0B, 0x0C, 0x0D, 0x20, 0x85, 0xA0, 0x1680, 0x2000, 0x2001,
    0x2002, 0x2003, 0x2004, 0x2005, 0x2006, 0x2007, 0x2008, 0x2009, 0x200A,
    0x2028, 0x2029, 0x202F, 0x205F, 0x3000]

/-- Whether a character is whitespace in the sense of the Rust trim. -/
def isRustWhitespace (c : Char) : Bool := decide (c.toNat ∈ rustWhitespaceCodes)

/-- Remove leading and trailing whitespace from a character list. -/
def trimChars (l : List Char) : List Char :=
  ((l.dropWhile isRustWhitespace).reverse.dropWhile isRustWhitespace).reverse

/-- The normalization the dispatcher applies to the selector before the
match: ASCII lowercase, then trim. -/
def normalize (s : String) : String := String.mk (trimChars (s.data.map asciiLower))

/-- The match of main on the normalized selector. Each arm calls the
corresponding formatter; the catch-all arm is the unrecognized-format early
return, modelled as none. -/
def mainConvertNorm (x : String) (B : List Nat) (name : String) (t : Nat) : Option String :=
  if x = "bin" ∨ x = "binary" ∨ x = "raw" then
    some (binary_to_binary B)
  else if x = "hex" ∨ x = "hexadecimal" ∨ x = "hexa" ∨ x = "hexa-decimal" ∨
      x = "hexa_decimal" then
    some (binary_to_hex B)
  else if x = "c" ∨ x = "cpp" ∨ x = "c++" ∨ x = "cxx" ∨ x = "h" ∨ x = "hpp" ∨
      x = "h++" ∨ x = "hxx" then
    some (binary_to_c_const B name t)
  else if x = "cdef" ∨ x = "c-def" ∨ x = "c_def" ∨ x = "def" ∨ x = "define" ∨
      x = "cppdef" then
    some (binary_to_c_define B name t)
  else if x = "rust" ∨ x = "rs" ∨ x = "rustlang" ∨ x = "rust-lang" then
    some (binary_to_rust_const B name t)
  else if x = "csharp" ∨ x = "cs" ∨ x = "c#" ∨ x = "c-sharp" ∨ x = "c_sharp" then
    some (binary_to_csharp_const B name t)
  else if x = "python" ∨ x = "py" ∨ x = "python3" ∨ x = "py3" ∨ x = "python_3" then
    some (binary_to_python_const B name t)
  else if x = "javascript" ∨ x = "js" ∨ x = "typescript" ∨ x = "ts" then
    some (binary_to_javascript_const B name t)
  else none

/-- Embedding of the selector dispatch of main from src/main.rs: normalize
the selector, then match. -/
def mainConvert (conversion_type : String) (B : List Nat) (name : String) (t : Nat) :
    Option String :=
  mainConvertNorm (normalize conversion_type) B name t

/-! ## Reading back 0x literals from a rendered string -/

/-- Whether a character is a hexadecimal digit. -/
def isHexDig (c : Char) : Bool :=
  (decide ('0' ≤ c) && decide (c ≤ '9')) || (decide ('a' ≤ c) && decide (c ≤ 'f')) ||
    (decide ('A' ≤ c) && decide (c ≤ 'F'))

/-- Value of a hexadecimal digit character. -/
def hexVal (c : Char) : Nat :=
  if '0' ≤ c ∧ c ≤ '9' then c.toNat - '0'.toNat
  else if 'a' ≤ c ∧ c ≤ 'f' then c.toNat - 'a'.toNat + 10
  else if 'A' ≤ c ∧ c ≤ 'F' then c.toNat - 'A'.toNat + 10
  else 0

/-- Scan a character list left to right and collect, in order, the values
of every 0x-prefixed two-hex-digit literal: a 0, an x, and two hex digits.
On a match all four characters are consumed; otherwise one character is
skipped. -/
def extract0x : List Char → List Nat
  | [] => []
  | [_] => []
  | [_, _] => []
  | [_, _, _] => []
  | c0 :: c1 :: c2 :: c3 :: rest =>
    if c0 == '0' && c1 == 'x' && isHexDig c2 && isHexDig c3 then
      (16 * hexVal c2 + hexVal c3) :: extract0x rest
    else extract0x (c1 :: c2 :: c3 :: rest)

/-- Whether a character list avoids the two-character sequence 0x. -/
def no0x : List Char → Bool
  | [] => true
  | [_] => true
  | c1 :: c2 :: rest => !(c1 == '0' && c2 == 'x') && no0x (c2 :: rest)

/-! ## Helper lemmas: digit strings -/

theorem digitsAux_fuel (base : Nat) (hbase : 2 ≤ base) :
    ∀ n f1 f2, n ≤ f1 → n ≤ f2 → digitsAux base f1 n = digitsAux base f2 n := by
  intro n
  induction n using Nat.strong_induction_on with
  | _ n ih =>
    intro f1 f2 h1 h2
    rcases Nat.lt_or_ge n base with hn | hn
    · cases f1 <;> cases f2 <;> simp [digitsAux, hn]
    · obtain ⟨g1, rfl⟩ : ∃ g, f1 = g + 1 := ⟨f1 - 1, by omega⟩
      obtain ⟨g2, rfl⟩ : ∃ g, f2 = g + 1 := ⟨f2 - 1, by omega⟩
      have hlt : n / base < n := Nat.div_lt_self (by omega) (by omega)
      simp only [digitsAux, if_neg (by omega : ¬ n < base)]
      rw [ih (n / base) hlt g1 g2 (by omega) (by omega)]

theorem digitsBase_eq (base n : Nat) (hbase : 2 ≤ base) :
    digitsBase base n =
      if n < base then [Nat.digitChar n]
      else digitsBase base (n / base) ++ [Nat.digitChar (n % base)] := by
  rcases Nat.lt_or_ge n base with hn | hn
  · rw [if_pos hn]
    cases n <;> simp [digitsBase, digitsAux, hn]
  · rw [if_neg (by omega)]
    obtain ⟨m, rfl⟩ : ∃ m, n = m + 1 := ⟨n - 1, by omega⟩
    have hlt : (m + 1) / base < m + 1 := Nat.div_lt_self (by omega) (by omega)
    simp only [digitsBase, digitsAux, if_neg (by omega : ¬ m + 1 < base)]
    rw [digitsAux_fuel base hbase ((m + 1) / base) m ((m + 1) / base) (by omega) (le_refl _)]

theorem digitsBase_mem (base : Nat) (hbase : 2 ≤ base) (hb16 : base ≤ 16) :
    ∀ n, ∀ c ∈ digitsBase base n, ∃ d, d < 16 ∧ c = Nat.digitChar d := by
  intro n
  induction n using Nat.strong_induction_on with
  | _ n ih =>
    intro c hc
    rw [digitsBase_eq base n hbase] at hc
    by_cases hn : n < base
    · rw [if_pos hn] at hc
      simp only [List.mem_singleton] at hc
      exact ⟨n, by omega, hc⟩
    · rw [if_neg hn] at hc
      rcases List.mem_append.1 hc with h | h
      · exact ih (n / base) (Nat.div_lt_self (by omega) (by omega)) c h
      · simp only [List.mem_singleton] at h
        refine ⟨n % base, ?_, h⟩
        have hm : n % base < base := Nat.mod_lt n (by omega)
        omega

theorem isHexDig_digitChar (d : Nat) (h : d < 16) : isHexDig (Nat.digitChar d) = true := by
  interval_cases d <;> decide

theorem hexVal_digitChar (d : Nat) (h : d < 16) : hexVal (Nat.digitChar d) = d := by
  interval_cases d <;> decide

theorem isHexDig_ne {c x : Char} (h : isHexDig c = true) (hx : isHexDig x = false) :
    c ≠ x := by
  intro he
  rw [he, hx] at h
  cases h

/-- Characters of a digit string in base at most 16 are hex digits. -/
theorem digitsBase_isHexDig (base : Nat) (hbase : 2 ≤ base) (hb16 : base ≤ 16) (n : Nat) :
    ∀ c ∈ digitsBase base n, isHexDig c = true := by
  intro c hc
  obtain ⟨d, hd, rfl⟩ := digitsBase_mem base hbase hb16 n c hc
  exact isHexDig_digitChar d hd

/-! ## Helper lemmas: the row loop of the dump formatters -/

theorem rowsAux_fuel (row : Nat → String) (len : Nat) :
    ∀ f1 f2 i, len ≤ i + 16 * f1 → len ≤ i + 16 * f2 →
      rowsAux row len f1 i = rowsAux row len f2 i := by
  intro f1
  induction f1 with
  | zero =>
    intro f2 i h1 h2
    cases f2 with
    | zero => rfl
    | succ g => simp only [rowsAux]; rw [if_neg (by omega)]
  | succ f ih =>
    intro f2 i h1 h2
    cases f2 with
    | zero => simp only [rowsAux]; rw [if_neg (by omega)]
    | succ g =>
      simp only [rowsAux]
      by_cases hi : i < len
      · rw [if_pos hi, if_pos hi, ih g (i + 16) (by omega) (by omega)]
      · rw [if_neg hi, if_neg hi]

/-- The defining equation of the dump while loop. -/
theorem rowsFrom_eq (row : Nat → String) (len i : Nat) :
    rowsFrom row len i = if i < len then row i ++ rowsFrom row len (i + 16) else "" := by
  by_cases hi : i < len
  · rw [if_pos hi]
    obtain ⟨f, hf⟩ : ∃ f, len - i = f + 1 := ⟨len - i - 1, by omega⟩
    unfold rowsFrom
    rw [hf]
    simp only [rowsAux, if_pos hi]
    rw [rowsAux_fuel row len f (len - (i + 16)) (i + 16) (by omega) (by omega)]
  · rw [if_neg hi]
    unfold rowsFrom
    have : len - i = 0 := by omega
    rw [this]
    rfl

theorem foldl_append_init (l : List String) :
    ∀ init : String, l.foldl (· ++ ·) init = init ++ l.foldl (· ++ ·) "" := by
  induction l with
  | nil => intro init; simp [String.append_empty]
  | cons a l ih =>
    intro init
    simp only [List.foldl]
    rw [ih ("" ++ a), ih (init ++ a), String.empty_append, String.append_assoc]

theorem join_cons (a : String) (l : List String) :
    String.join (a :: l) = a ++ String.join l := by
  simp only [String.join, List.foldl]
  rw [foldl_append_init l ("" ++ a), String.empty_append]

theorem join_data (l : List String) :
    (String.join l).data = (l.map String.data).flatten := by
  induction l with
  | nil => rfl
  | cons a l ih => rw [join_cons, String.data_append, ih, List.map_cons, List.flatten_cons]

/-- The dump while loop started at a multiple of 16 is the concatenation of
one rendered row per remaining 16-byte block. -/
theorem rowsFrom_join (row : Nat → String) (len : Nat) :
    ∀ n k, (len - 16 * k + 15) / 16 = n →
      rowsFrom row len (16 * k) =
        String.join ((List.range n).map (fun r => row (16 * (k + r)))) := by
  intro n
  induction n with
  | zero =>
    intro k hk
    rw [rowsFrom_eq, if_neg (by omega)]
    rfl
  | succ m ih =>
    intro k hk
    have hklt : 16 * k < len := by omega
    rw [rowsFrom_eq, if_pos hklt]
    have h16 : 16 * k + 16 = 16 * (k + 1) := by ring
    rw [h16, ih (k + 1) (by omega)]
    rw [List.range_succ_eq_map, List.map_cons, join_cons, List.map_map]
    have harg : k + 0 = k := by omega
    rw [harg]
    have hfun : ((fun r => row (16 * (k + r))) ∘ (fun r => r + 1)) =
        fun r => row (16 * (k + 1 + r)) := by
      funext r
      simp only [Function.comp_apply]
      have : 16 * (k + (r + 1)) = 16 * (k + 1 + r) := by ring
      rw [this]
    rw [hfun]

/-! ## Helper lemmas: the 0x literal scanner -/

theorem extract0x_cons_ne (c : Char) (l : List Char) (h : c ≠ '0') :
    extract0x (c :: l) = extract0x l := by
  match l with
  | [] => rfl
  | [a] => rfl
  | [a, b] => rfl
  | a :: b :: d :: rest =>
    simp only [extract0x]
    rw [if_neg (by simp [h])]

theorem extract0x_zero_not_x (c : Char) (l : List Char) (h : c ≠ 'x') :
    extract0x ('0' :: c :: l) = extract0x (c :: l) := by
  match l with
  | [] => rfl
  | [a] => rfl
  | a :: b :: rest =>
    simp only [extract0x]
    rw [if_neg (by simp [h])]

theorem extract0x_append_of_ne (l1 l2 : List Char) (h : ∀ c ∈ l1, c ≠ '0') :
    extract0x (l1 ++ l2) = extract0x l2 := by
  induction l1 with
  | nil => rfl
  | cons c rest ih =>
    rw [List.cons_append, extract0x_cons_ne c _ (h c (List.mem_cons_self c rest))]
    exact ih (fun d hd => h d (List.mem_cons_of_mem c hd))

theorem no0x_tail (c : Char) (rest : List Char) (h : no0x (c :: rest) = true) :
    no0x rest = true := by
  match rest with
  | [] => rfl
  | r :: rt =>
    simp only [no0x, Bool.and_eq_true] at h
    exact h.2

theorem no0x_head_not_x (rest : List Char) (h : no0x ('0' :: rest) = true) :
    rest.head? ≠ some 'x' := by
  match rest with
  | [] => simp
  | r :: rt =>
    intro he
    simp only [List.head?, Option.some.injEq] at he
    subst he
    simp [no0x] at h

theorem no0x_of_ne_x (l : List Char) (h : ∀ c ∈ l, c ≠ 'x') : no0x l = true := by
  induction l with
  | nil => rfl
  | cons c rest ih =>
    match rest, ih with
    | [], _ => rfl
    | r :: rt, ih =>
      have hr : r ≠ 'x' := h r (by simp)
      simp only [no0x, Bool.and_eq_true, Bool.not_eq_true', Bool.and_eq_false_iff]
      refine ⟨Or.inr (beq_eq_false_iff_ne.2 hr), ?_⟩
      exact ih (fun d hd => h d (List.mem_cons_of_mem c hd))

theorem no0x_of_ne_zero (l : List Char) (h : ∀ c ∈ l, c ≠ '0') : no0x l = true := by
  induction l with
  | nil => rfl
  | cons c rest ih =>
    match rest, ih with
    | [], _ => rfl
    | r :: rt, ih =>
      have hc : c ≠ '0' := h c (by simp)
      simp only [no0x, Bool.and_eq_true, Bool.not_eq_true', Bool.and_eq_false_iff]
      refine ⟨Or.inl (beq_eq_false_iff_ne.2 hc), ?_⟩
      exact ih (fun d hd => h d (List.mem_cons_of_mem c hd))

/-- Scanning skips over any prefix that avoids the 0x pair, as long as the
continuation does not begin with an x that could pair with a trailing 0. -/
theorem extract0x_skip (l1 l2 : List Char) (h1 : no0x l1 = true)
    (h2 : l1.getLast? = some '0' → l2.head? ≠ some 'x') :
    extract0x (l1 ++ l2) = extract0x l2 := by
  induction l1 with
  | nil => rfl
  | cons c rest ih =>
    by_cases hc : c = '0'
    · subst hc
      match rest with
      | [] =>
        have hx : l2.head? ≠ some 'x' := h2 (by simp)
        match l2 with
        | [] => rfl
        | c2 :: l2t =>
          have hne : c2 ≠ 'x' := by
            intro he
            exact hx (by rw [he]; rfl)
          exact extract0x_zero_not_x c2 l2t hne
      | r :: rt =>
        have hr : r ≠ 'x' := by
          have := no0x_head_not_x (r :: rt) h1
          simpa using this
        rw [List.cons_append, List.cons_append, extract0x_zero_not_x r (rt ++ l2) hr,
          ← List.cons_append]
        exact ih (no0x_tail _ _ h1) (fun hg => h2 (by rw [List.getLast?_cons_cons]; exact hg))
    · rw [List.cons_append, extract0x_cons_ne c _ hc]
      match rest with
      | [] => rfl
      | r :: rt =>
        exact ih (no0x_tail _ _ h1) (fun hg => h2 (by rw [List.getLast?_cons_cons]; exact hg))

theorem mem_spaces (t : Nat) : ∀ c ∈ (spaces t).data, c = ' ' := by
  intro c hc
  exact List.eq_of_mem_replicate hc

/-- Scanning skips the optional comma separator of the constant loops. -/
theorem extract0x_skip_comma (P : Prop) [Decidable P] (L : List Char) :
    extract0x ((if P then (", " : String) else "").data ++ L) = extract0x L := by
  split
  · exact extract0x_append_of_ne _ _ (by decide)
  · rfl

/-- Scanning skips the optional wrap of the array-style constant loops. -/
theorem extract0x_skip_wrap (P : Prop) [Decidable P] (t : Nat) (L : List Char) :
    extract0x ((if P then spaces t ++ ("\n" : String) else "").data ++ L) = extract0x L := by
  split
  · apply extract0x_append_of_ne
    intro c hc
    rw [String.data_append] at hc
    rcases List.mem_append.1 hc with hm | hm
    · rw [mem_spaces t c hm]; decide
    · have hnl : ("\n" : String).data = ['\n'] := rfl
      rw [hnl] at hm
      have : c = '\n' := by simpa using hm
      rw [this]; decide
  · rfl

theorem head?_append_left {α : Type} (a b : List α) (h : a ≠ []) :
    (a ++ b).head? = a.head? := by
  cases a with
  | nil => exact absurd rfl h
  | cons c l => simp

/-- On a rendered byte literal the scanner recovers exactly the byte. -/
theorem extract0x_lit (b : Nat) (hb : b < 256) (L : List Char) :
    extract0x ('0' :: 'x' :: Nat.digitChar (b % 256 / 16) :: Nat.digitChar (b % 16) :: L) =
      b :: extract0x L := by
  simp only [extract0x]
  rw [if_pos (by simp [isHexDig_digitChar _ (show b % 256 / 16 < 16 by omega),
    isHexDig_digitChar _ (show b % 16 < 16 by omega)])]
  rw [hexVal_digitChar _ (by omega), hexVal_digitChar _ (by omega)]
  congr 1
  omega

theorem extract0x_skip_linestart (ls : Bool) (t : Nat) (L : List Char) :
    extract0x ((if ls then "" else spaces t ++ ("    " : String)).data ++ L) = extract0x L := by
  cases ls
  · rw [if_neg (by simp)]
    apply extract0x_append_of_ne
    intro c hc
    rw [String.data_append] at hc
    rcases List.mem_append.1 hc with hm | hm
    · rw [mem_spaces t c hm]; decide
    · have h4 : ("    " : String).data = [' ', ' ', ' ', ' '] := rfl
      rw [h4] at hm
      have : c = ' ' := by simpa using hm
      rw [this]; decide
  · rw [if_pos rfl]
    rfl

theorem extract0x_skip_bslash (P : Prop) [Decidable P] (L : List Char) :
    extract0x ((if P then ("\\\n" : String) else "").data ++ L) = extract0x L := by
  split
  · exact extract0x_append_of_ne _ _ (by decide)
  · rfl

/-- The scanner reads back exactly the remaining bytes from the shared
array-style loop body followed by any tail. -/
theorem extract0x_constLoopBody (len t : Nat) (bytes : List Nat) :
    ∀ (i : Nat) (tail : List Char), (∀ b ∈ bytes, b < 256) →
      extract0x ((constLoopBody len t bytes i).data ++ tail) = bytes ++ extract0x tail := by
  induction bytes with
  | nil => intro i tail hb; rfl
  | cons b rest ih =>
    intro i tail hb
    simp only [constLoopBody, String.data_append, List.append_assoc]
    rw [show (hex2 b).data = [Nat.digitChar (b % 256 / 16), Nat.digitChar (b % 16)] from rfl]
    simp only [List.cons_append, List.nil_append]
    rw [extract0x_lit b (hb b (List.mem_cons_self b rest))]
    rw [extract0x_skip_comma, extract0x_skip_wrap]
    rw [ih (i + 1) tail (fun d hd => hb d (List.mem_cons_of_mem b hd))]

/-- The scanner reads back exactly the remaining bytes from the define loop
body followed by any tail. -/
theorem extract0x_defineLoopBody (len t : Nat) (bytes : List Nat) :
    ∀ (i : Nat) (ls : Bool) (tail : List Char), (∀ b ∈ bytes, b < 256) →
      extract0x ((defineLoopBody len t bytes i ls).data ++ tail) = bytes ++ extract0x tail := by
  induction bytes with
  | nil => intro i ls tail hb; rfl
  | cons b rest ih =>
    intro i ls tail hb
    simp only [defineLoopBody, String.data_append, List.append_assoc]
    rw [extract0x_skip_linestart]
    rw [show (hex2 b).data = [Nat.digitChar (b % 256 / 16), Nat.digitChar (b % 16)] from rfl]
    simp only [List.cons_append, List.nil_append]
    rw [extract0x_lit b (hb b (List.mem_cons_self b rest))]
    rw [extract0x_skip_comma, extract0x_skip_bslash]
    rw [ih (i + 1) _ tail (fun d hd => hb d (List.mem_cons_of_mem b hd))]

/-- Skipping a name that avoids the 0x pair, in front of a nonempty fixed
segment that does not begin with an x. -/
theorem extract0x_skip_name (nm : List Char) (s : String) (L : List Char)
    (h1 : no0x nm = true) (hsx : s.data.head? ≠ some 'x') (hsn : s.data ≠ []) :
    extract0x (nm ++ (s.data ++ L)) = extract0x (s.data ++ L) :=
  extract0x_skip nm _ h1 (fun _ => by rw [head?_append_left _ _ hsn]; exact hsx)

theorem decChars_ne_x (n : Nat) : ∀ c ∈ decChars n, c ≠ 'x' := by
  intro c hc
  exact isHexDig_ne (digitsBase_isHexDig 10 (by omega) (by omega) n c hc) (by decide)

theorem no0x_decChars (n : Nat) : no0x (decChars n) = true :=
  no0x_of_ne_x _ (decChars_ne_x n)

/-- Skipping a run of decimal digits, in front of a nonempty fixed segment
that does not begin with an x. -/
theorem extract0x_skip_dec (n : Nat) (s : String) (L : List Char)
    (hsx : s.data.head? ≠ some 'x') (hsn : s.data ≠ []) :
    extract0x (decChars n ++ (s.data ++ L)) = extract0x (s.data ++ L) :=
  extract0x_skip _ _ (no0x_decChars n) (fun _ => by rw [head?_append_left _ _ hsn]; exact hsx)

theorem extract0x_skip_spaces (t : Nat) (L : List Char) :
    extract0x ((spaces t).data ++ L) = extract0x L :=
  extract0x_append_of_ne _ _ (fun c hc => by rw [mem_spaces t c hc]; decide)

theorem extract0x_eq_nil (l : List Char) (h : ∀ c ∈ l, c ≠ '0') : extract0x l = [] := by
  have := extract0x_append_of_ne l [] h
  simpa using this

/-! ## Claim C1: round trip of the emitted 0x literals -/

/-- C1 (counterexample): with the name 0xff, the constant name itself
contributes a 0x-prefixed two-hex-digit literal to the output, so the
ordered sequence of such literals in the rendered text is not the input
byte sequence: on the empty input it is [255] rather than []. -/
theorem c1_counterexample :
    extract0x (binary_to_c_const [] "0xff" 4).data = [255] ∧
      extract0x (binary_to_c_const [] "0xff" 4).data ≠ [] := by
  constructor
  · decide
  · decide

/-- C1 (amended): for every byte sequence, every indentation width, and
every name in which the character 0 is never immediately followed by the
character x, the ordered sequence of 0x-prefixed two-hex-digit literals
appearing in the output of each of the eight source-constant formatters is
exactly the input byte sequence. -/
theorem c1_roundtrip_amended (B : List Nat) (name : String) (t : Nat)
    (hB : ∀ b ∈ B, b < 256) (hname : no0x name.data = true) :
    extract0x (binary_to_c_const B name t).data = B ∧
      extract0x (binary_to_c_define B name t).data = B ∧
      extract0x (binary_to_rust_const B name t).data = B ∧
      extract0x (binary_to_python_const B name t).data = B ∧
      extract0x (binary_to_csharp_const B name t).data = B ∧
      extract0x (binary_to_javascript_const B name t).data = B ∧
      extract0x (binary_to_go_const B name t).data = B ∧
      extract0x (binary_to_java_const B name t).data = B := by
  refine ⟨?_, ?_, ?_, ?_, ?_, ?_, ?_, ?_⟩
  · simp only [binary_to_c_const, String.data_append, List.append_assoc]
    refine Eq.trans (extract0x_append_of_ne _ _ (by decide)) ?_
    refine Eq.trans (extract0x_skip_name name.data "[] = \x7b\n" _ hname (by decide) (by decide)) ?_
    refine Eq.trans (extract0x_append_of_ne _ _ (by decide)) ?_
    refine Eq.trans (extract0x_skip_spaces t _) ?_
    refine Eq.trans (extract0x_constLoopBody B.length t B 0 _ hB) ?_
    rw [extract0x_eq_nil _ (by decide), List.append_nil]
  · simp only [binary_to_c_define, String.data_append, List.append_assoc]
    refine Eq.trans (extract0x_append_of_ne _ _ (by decide)) ?_
    refine Eq.trans (extract0x_skip_name name.data "_SIZE " _ hname (by decide) (by decide)) ?_
    refine Eq.trans (extract0x_append_of_ne _ _ (by decide)) ?_
    refine Eq.trans (extract0x_skip_dec B.length "\n" _ (by decide) (by decide)) ?_
    refine Eq.trans (extract0x_append_of_ne _ _ (by decide)) ?_
    refine Eq.trans (extract0x_append_of_ne _ _ (by decide)) ?_
    refine Eq.trans (extract0x_skip_name name.data " \x7b" _ hname (by decide) (by decide)) ?_
    refine Eq.trans (extract0x_append_of_ne _ _ (by decide)) ?_
    refine Eq.trans (extract0x_defineLoopBody B.length t B 0 false _ hB) ?_
    rw [extract0x_eq_nil _ (by decide), List.append_nil]
  · simp only [binary_to_rust_const, String.data_append, List.append_assoc]
    refine Eq.trans (extract0x_append_of_ne _ _ (by decide)) ?_
    refine Eq.trans (extract0x_skip_name name.data ": [u8; " _ hname (by decide) (by decide)) ?_
    refine Eq.trans (extract0x_append_of_ne _ _ (by decide)) ?_
    refine Eq.trans (extract0x_skip_dec B.length "] = [\n" _ (by decide) (by decide)) ?_
    refine Eq.trans (extract0x_append_of_ne _ _ (by decide)) ?_
    refine Eq.trans (extract0x_skip_spaces t _) ?_
    refine Eq.trans (extract0x_constLoopBody B.length t B 0 _ hB) ?_
    rw [extract0x_eq_nil _ (by decide), List.append_nil]
  · simp only [binary_to_python_const, String.data_append, List.append_assoc]
    refine Eq.trans (extract0x_skip_name name.data " = bytes([\n" _ hname (by decide) (by decide)) ?_
    refine Eq.trans (extract0x_append_of_ne _ _ (by decide)) ?_
    refine Eq.trans (extract0x_skip_spaces t _) ?_
    refine Eq.trans (extract0x_constLoopBody B.length t B 0 _ hB) ?_
    rw [extract0x_eq_nil _ (by decide), List.append_nil]
  · simp only [binary_to_csharp_const, String.data_append, List.append_assoc]
    refine Eq.trans (extract0x_append_of_ne _ _ (by decide)) ?_
    refine Eq.trans
      (extract0x_skip_name name.data " = new byte[] \x7b\n" _ hname (by decide) (by decide)) ?_
    refine Eq.trans (extract0x_append_of_ne _ _ (by decide)) ?_
    refine Eq.trans (extract0x_skip_spaces t _) ?_
    refine Eq.trans (extract0x_constLoopBody B.length t B 0 _ hB) ?_
    rw [extract0x_eq_nil _ (by decide), List.append_nil]
  · simp only [binary_to_javascript_const, String.data_append, List.append_assoc]
    refine Eq.trans (extract0x_append_of_ne _ _ (by decide)) ?_
    refine Eq.trans
      (extract0x_skip_name name.data " = new Uint8Array([\n" _ hname (by decide) (by decide)) ?_
    refine Eq.trans (extract0x_append_of_ne _ _ (by decide)) ?_
    refine Eq.trans (extract0x_skip_spaces t _) ?_
    refine Eq.trans (extract0x_constLoopBody B.length t B 0 _ hB) ?_
    rw [extract0x_eq_nil _ (by decide), List.append_nil]
  · simp only [binary_to_go_const, String.data_append, List.append_assoc]
    refine Eq.trans (extract0x_append_of_ne _ _ (by decide)) ?_
    refine Eq.trans
      (extract0x_skip_name name.data " = []byte\x7b\n" _ hname (by decide) (by decide)) ?_
    refine Eq.trans (extract0x_append_of_ne _ _ (by decide)) ?_
    refine Eq.trans (extract0x_skip_spaces t _) ?_
    refine Eq.trans (extract0x_constLoopBody B.length t B 0 _ hB) ?_
    rw [extract0x_eq_nil _ (by decide), List.append_nil]
  · simp only [binary_to_java_const, String.data_append, List.append_assoc]
    refine Eq.trans (extract0x_append_of_ne _ _ (by decide)) ?_
    refine Eq.trans
      (extract0x_skip_name name.data " = new byte[] \x7b\n" _ hname (by decide) (by decide)) ?_
    refine Eq.trans (extract0x_append_of_ne _ _ (by decide)) ?_
    refine Eq.trans (extract0x_skip_spaces t _) ?_
    refine Eq.trans (extract0x_constLoopBody B.length t B 0 _ hB) ?_
    rw [extract0x_eq_nil _ (by decide), List.append_nil]

/-- C1 (witness): the amended round trip evaluated at a concrete input. -/
theorem c1_witness :
    extract0x (binary_to_c_const [0, 255] "data" 4).data = [0, 255] ∧
      extract0x (binary_to_c_define [0, 255] "data" 4).data = [0, 255] ∧
      extract0x (binary_to_rust_const [0, 255] "data" 4).data = [0, 255] ∧
      extract0x (binary_to_python_const [0, 255] "data" 4).data = [0, 255] ∧
      extract0x (binary_to_csharp_const [0, 255] "data" 4).data = [0, 255] ∧
      extract0x (binary_to_javascript_const [0, 255] "data" 4).data = [0, 255] ∧
      extract0x (binary_to_go_const [0, 255] "data" 4).data = [0, 255] ∧
      extract0x (binary_to_java_const [0, 255] "data" 4).data = [0, 255] :=
  c1_roundtrip_amended [0, 255] "data" 4 (by decide) (by decide)

/-! ## Claim C2: line wrapping of the array-style formatters -/

/-- C2 (code evaluated at the failing input): on a 17 byte input the code
appends the indentation block and then the newline after the sixteenth
byte, so the full first line of literals ends with four trailing spaces and
the continuation line holding 0x10 starts with no indentation; and on a 16
byte input the wrap fires although no bytes follow, leaving a dangling
blank line before the closing brace. -/
theorem c2_wrap_behavior :
    binary_to_c_const (List.range 17) "n" 4 =
      "const unsigned char n[] = \x7b\n    0x00, 0x01, 0x02, 0x03, 0x04, 0x05, 0x06, 0x07, 0x08, 0x09, 0x0a, 0x0b, 0x0c, 0x0d, 0x0e, 0x0f,     \n0x10\n\x7d;\n" ∧
      binary_to_c_const (List.range 16) "n" 4 =
        "const unsigned char n[] = \x7b\n    0x00, 0x01, 0x02, 0x03, 0x04, 0x05, 0x06, 0x07, 0x08, 0x09, 0x0a, 0x0b, 0x0c, 0x0d, 0x0e, 0x0f    \n\n\x7d;\n" := by
  constructor
  · decide
  · decide

/-! ## Claim C5: the define variant does not uppercase the name -/

/-- C5 (code evaluated at the failing input): binary_to_c_define uses the
supplied name verbatim in both macros, while its own documentation shows
TEST_TXT for the name test_txt; the size line reads
hash-define test_txt_SIZE 4, not hash-define TEST_TXT_SIZE 4. -/
theorem c5_name_not_uppercased :
    binary_to_c_define [0, 1, 2, 3] "test_txt" 4 =
      "#define test_txt_SIZE 4\n#define test_txt \x7b        0x00, 0x01, 0x02, 0x03\x7d\n" := by
  decide

/-! ## Claim C6: the concrete hex dump scenario -/

/-- C6 (counterexample): the claimed rendering with 39 spaces and a
four-character ASCII column is not what binary_to_hex returns on the bytes
0, 1, 2, 3. -/
theorem c6_counterexample :
    binary_to_hex [0, 1, 2, 3] ≠
      "00000000  00 01 02 03" ++ spaces 39 ++ "|....|\n" := by
  decide

/-- C6 (amended): on the bytes 0, 1, 2, 3 the hex dump row is the offset,
the four rendered bytes, 42 spaces of absent slots, group gaps and
separator, then the ASCII column holding four dots padded with 12 spaces
for the absent slots between the pipes. -/
theorem c6_hex_scenario :
    binary_to_hex [0, 1, 2, 3] =
      "00000000  00 01 02 03                                          |....            |\n" := by
  decide

/-! ## Claim C7: the empty byte sequence -/

/-- C7 (counterexample): on the empty input binary_to_c_define emits no
indentation block at all: with tab width 10 the whole output holds only
the four single spaces of the two macro lines, never ten consecutive
spaces, so the define variant does not return an indentation block between
its opening and closing syntax. -/
theorem c7_counterexample :
    binary_to_c_define [] "n" 10 = "#define n_SIZE 0\n#define n \x7b\x7d\n" ∧
      (binary_to_c_define [] "n" 10).data.count ' ' = 4 := by
  constructor
  · decide
  · decide

/-- C7 (amended): on the empty input the seven array-style formatters
return the opening declaration line, one indentation block, and the
closing syntax with no byte literal in between; binary_to_c_define returns
its two macro lines with an empty brace pair and no indentation block. In
every case the per-byte loop body, which holds the i less than len minus
one test, is never entered. -/
theorem c7_empty_input (name : String) (t : Nat) :
    binary_to_c_const [] name t =
        "const unsigned char " ++ name ++ "[] = \x7b\n" ++ spaces t ++ "\n\x7d;\n" ∧
      binary_to_c_define [] name t =
        "#define " ++ name ++ "_SIZE 0\n#define " ++ name ++ " \x7b\x7d\n" ∧
      binary_to_rust_const [] name t =
        "const " ++ name ++ ": [u8; 0] = [\n" ++ spaces t ++ "\n];\n" ∧
      binary_to_python_const [] name t =
        name ++ " = bytes([\n" ++ spaces t ++ "\n])\n" ∧
      binary_to_csharp_const [] name t =
        "public static readonly byte[] " ++ name ++ " = new byte[] \x7b\n" ++ spaces t ++
          "\n\x7d;\n" ∧
      binary_to_javascript_const [] name t =
        "const " ++ name ++ " = new Uint8Array([\n" ++ spaces t ++ "\n]);\n" ∧
      binary_to_go_const [] name t =
        "var " ++ name ++ " = []byte\x7b\n" ++ spaces t ++ "\n\x7d\n" ∧
      binary_to_java_const [] name t =
        "public static final byte[] " ++ name ++ " = new byte[] \x7b\n" ++ spaces t ++
          "\n\x7d;\n" := by
  refine ⟨?_, ?_, ?_, ?_, ?_, ?_, ?_, ?_⟩
  · apply String.ext
    simp [binary_to_c_const, constLoopBody, String.data_append]
  · apply String.ext
    simp [binary_to_c_define, defineLoopBody, decString, String.data_append,
      show decChars 0 = ['0'] from rfl]
  · apply String.ext
    simp [binary_to_rust_const, constLoopBody, decString, String.data_append,
      show decChars 0 = ['0'] from rfl]
  · apply String.ext
    simp [binary_to_python_const, constLoopBody, String.data_append]
  · apply String.ext
    simp [binary_to_csharp_const, constLoopBody, String.data_append]
  · apply String.ext
    simp [binary_to_javascript_const, constLoopBody, String.data_append]
  · apply String.ext
    simp [binary_to_go_const, constLoopBody, String.data_append]
  · apply String.ext
    simp [binary_to_java_const, constLoopBody, String.data_append]

/-! ## Claim C4: the dispatcher -/

/-- All selector strings the dispatcher of main recognizes. -/
def aliasStrings : List String :=
  ["bin", "binary", "raw",
   "hex", "hexadecimal", "hexa", "hexa-decimal", "hexa_decimal",
   "c", "cpp", "c++", "cxx", "h", "hpp", "h++", "hxx",
   "cdef", "c-def", "c_def", "def", "define", "cppdef",
   "rust", "rs", "rustlang", "rust-lang",
   "csharp", "cs", "c#", "c-sharp", "c_sharp",
   "python", "py", "python3", "py3", "python_3",
   "javascript", "js", "typescript", "ts"]

/-- The normalization in the order the claim words it: trim first, then
lowercase. The dispatcher itself lowercases first and then trims; the two
agree, as proved below. -/
def lowerAfterTrim (s : String) : String := String.mk ((trimChars s.data).map asciiLower)

theorem char_toNat_ofNat (n : Nat) (h : n < 55296) : (Char.ofNat n).toNat = n := by
  unfold Char.ofNat
  split
  · rfl
  · rename_i hv
    exact absurd (Or.inl (by omega)) hv

theorem not_ws_range (n : Nat) (h1 : 33 ≤ n) (h2 : n ≤ 132) :
    decide (n ∈ rustWhitespaceCodes) = false := by
  rw [decide_eq_false_iff_not]
  simp only [rustWhitespaceCodes, List.mem_cons, List.not_mem_nil, or_false]
  omega

theorem ws_asciiLower (c : Char) : isRustWhitespace (asciiLower c) = isRustWhitespace c := by
  unfold asciiLower
  split
  · rename_i h
    unfold isRustWhitespace
    rw [char_toNat_ofNat (c.toNat + 32) (by omega)]
    rw [not_ws_range (c.toNat + 32) (by omega) (by omega),
      not_ws_range c.toNat (by omega) (by omega)]
  · rfl

theorem trimChars_map_asciiLower (l : List Char) :
    trimChars (l.map asciiLower) = (trimChars l).map asciiLower := by
  unfold trimChars
  have hws : (isRustWhitespace ∘ asciiLower) = isRustWhitespace := funext ws_asciiLower
  rw [List.dropWhile_map, hws, ← List.map_reverse, List.dropWhile_map, hws, ← List.map_reverse]

theorem normalize_eq (s : String) : normalize s = lowerAfterTrim s :=
  congrArg String.mk (trimChars_map_asciiLower s.data)

theorem mainConvert_eq (s : String) (B : List Nat) (name : String) (t : Nat) :
    mainConvert s B name t = mainConvertNorm (normalize s) B name t := rfl

/-- Every alias in the table is already normalized. -/
theorem normalize_alias : ∀ s ∈ aliasStrings, normalize s = s := by decide

/-- C4: the dispatcher depends on the selector only through its
normalization (trim then lowercase); within each alias group every alias
selects the same formatter, hence byte-identical output; every selector
normalizing to c# selects the C# formatter; and every selector whose
normalization is outside the alias table yields the unrecognized-format
outcome, with no output produced. -/
theorem c4_dispatch (B : List Nat) (name : String) (t : Nat) :
    (∀ s1 s2 : String, lowerAfterTrim s1 = lowerAfterTrim s2 →
        mainConvert s1 B name t = mainConvert s2 B name t) ∧
      (∀ s ∈ (["bin", "binary", "raw"] : List String),
        mainConvert s B name t = some (binary_to_binary B)) ∧
      (∀ s ∈ (["hex", "hexadecimal", "hexa", "hexa-decimal", "hexa_decimal"] : List String),
        mainConvert s B name t = some (binary_to_hex B)) ∧
      (∀ s ∈ (["c", "cpp", "c++", "cxx", "h", "hpp", "h++", "hxx"] : List String),
        mainConvert s B name t = some (binary_to_c_const B name t)) ∧
      (∀ s ∈ (["cdef", "c-def", "c_def", "def", "define", "cppdef"] : List String),
        mainConvert s B name t = some (binary_to_c_define B name t)) ∧
      (∀ s ∈ (["rust", "rs", "rustlang", "rust-lang"] : List String),
        mainConvert s B name t = some (binary_to_rust_const B name t)) ∧
      (∀ s ∈ (["csharp", "cs", "c#", "c-sharp", "c_sharp"] : List String),
        mainConvert s B name t = some (binary_to_csharp_const B name t)) ∧
      (∀ s ∈ (["python", "py", "python3", "py3", "python_3"] : List String),
        mainConvert s B name t = some (binary_to_python_const B name t)) ∧
      (∀ s ∈ (["javascript", "js", "typescript", "ts"] : List String),
        mainConvert s B name t = some (binary_to_javascript_const B name t)) ∧
      (∀ s : String, lowerAfterTrim s = "c#" →
        mainConvert s B name t = some (binary_to_csharp_const B name t)) ∧
      (∀ s : String, lowerAfterTrim s ∉ aliasStrings → mainConvert s B name t = none) := by
  refine ⟨?_, ?_, ?_, ?_, ?_, ?_, ?_, ?_, ?_, ?_, ?_⟩
  · intro s1 s2 h
    rw [mainConvert_eq, mainConvert_eq, normalize_eq, normalize_eq, h]
  · intro s hs; fin_cases hs <;> (rw [mainConvert_eq, normalize_alias _ (by decide)]; rfl)
  · intro s hs; fin_cases hs <;> (rw [mainConvert_eq, normalize_alias _ (by decide)]; rfl)
  · intro s hs; fin_cases hs <;> (rw [mainConvert_eq, normalize_alias _ (by decide)]; rfl)
  · intro s hs; fin_cases hs <;> (rw [mainConvert_eq, normalize_alias _ (by decide)]; rfl)
  · intro s hs; fin_cases hs <;> (rw [mainConvert_eq, normalize_alias _ (by decide)]; rfl)
  · intro s hs; fin_cases hs <;> (rw [mainConvert_eq, normalize_alias _ (by decide)]; rfl)
  · intro s hs; fin_cases hs <;> (rw [mainConvert_eq, normalize_alias _ (by decide)]; rfl)
  · intro s hs; fin_cases hs <;> (rw [mainConvert_eq, normalize_alias _ (by decide)]; rfl)
  · intro s h
    rw [mainConvert_eq, normalize_eq, h]
    rfl
  · intro s h
    rw [mainConvert_eq, normalize_eq]
    unfold mainConvertNorm
    rw [if_neg (fun hc => h (by rcases hc with hx | hx | hx <;> (rw [hx]; decide)))]
    rw [if_neg (fun hc => h (by rcases hc with hx | hx | hx | hx | hx <;> (rw [hx]; decide)))]
    rw [if_neg (fun hc => h
      (by rcases hc with hx | hx | hx | hx | hx | hx | hx | hx <;> (rw [hx]; decide)))]
    rw [if_neg (fun hc => h (by rcases hc with hx | hx | hx | hx | hx | hx <;> (rw [hx]; decide)))]
    rw [if_neg (fun hc => h (by rcases hc with hx | hx | hx | hx <;> (rw [hx]; decide)))]
    rw [if_neg (fun hc => h (by rcases hc with hx | hx | hx | hx | hx <;> (rw [hx]; decide)))]
    rw [if_neg (fun hc => h (by rcases hc with hx | hx | hx | hx | hx <;> (rw [hx]; decide)))]
    rw [if_neg (fun hc => h (by rcases hc with hx | hx | hx | hx <;> (rw [hx]; decide)))]

/-- C4 (witness): a padded mixed-case C# selector resolves to the C#
formatter, and the selector xyz yields the unrecognized-format outcome. -/
theorem c4_witness :
    mainConvert " C# " [1] "n" 2 = some (binary_to_csharp_const [1] "n" 2) ∧
      mainConvert "xyz" [1] "n" 2 = none := by
  have h := c4_dispatch [1] "n" 2
  exact ⟨h.2.2.2.2.2.2.2.2.2.1 " C# " (by decide),
    h.2.2.2.2.2.2.2.2.2.2 "xyz" (by decide)⟩

/-! ## Claim C9: trailing newline -/

/-- C9 (counterexample): on the empty input both dump formatters return
the empty string, which does not end with a newline. -/
theorem c9_counterexample :
    binary_to_hex [] = "" ∧ binary_to_binary [] = "" ∧
      (binary_to_hex []).data.getLast? ≠ some '\n' := by
  refine ⟨by decide, by decide, by decide⟩

theorem hexRow_last (B : List Nat) (i : Nat) : (hexRow B i).data.getLast? = some '\n' := by
  simp only [hexRow, hexRowRest, String.data_append, List.getLast?_append]
  rfl

theorem binRow_last (B : List Nat) (i : Nat) : (binRow B i).data.getLast? = some '\n' := by
  simp only [binRow, binRowRest, String.data_append, List.getLast?_append]
  rfl

theorem rowsAux_last (row : Nat → String) (len : Nat)
    (hrow : ∀ i, (row i).data.getLast? = some '\n') :
    ∀ fuel i, rowsAux row len fuel i = "" ∨
      (rowsAux row len fuel i).data.getLast? = some '\n' := by
  intro fuel
  induction fuel with
  | zero => intro i; exact Or.inl rfl
  | succ f ih =>
    intro i
    simp only [rowsAux]
    by_cases hi : i < len
    · rw [if_pos hi]
      right
      rw [String.data_append, List.getLast?_append]
      rcases ih (i + 16) with he | he
      · rw [he]
        simp [hrow i]
      · rw [he]
        rfl
    · rw [if_neg hi]
      exact Or.inl rfl

theorem rowsFrom_last (row : Nat → String) (len : Nat)
    (hrow : ∀ i, (row i).data.getLast? = some '\n') (i : Nat) (hi : i < len) :
    (rowsFrom row len i).data.getLast? = some '\n' := by
  rw [rowsFrom_eq, if_pos hi, String.data_append, List.getLast?_append]
  rcases rowsAux_last row len hrow (len - (i + 16)) (i + 16) with he | he
  · show ((rowsFrom row len (i + 16)).data.getLast?).or _ = _
    unfold rowsFrom
    rw [he]
    simp [hrow i]
  · show ((rowsFrom row len (i + 16)).data.getLast?).or _ = _
    unfold rowsFrom
    rw [he]
    rfl

/-- C9 (amended): every source-constant formatter output ends with a
newline for every input including the empty one; the two dump formatters
end with a newline for every nonempty input, and return the empty string
(no trailing newline) on the empty input. -/
theorem c9_trailing_newline (B : List Nat) (name : String) (t : Nat) :
    ((binary_to_c_const B name t).data.getLast? = some '\n' ∧
      (binary_to_c_define B name t).data.getLast? = some '\n' ∧
      (binary_to_rust_const B name t).data.getLast? = some '\n' ∧
      (binary_to_python_const B name t).data.getLast? = some '\n' ∧
      (binary_to_csharp_const B name t).data.getLast? = some '\n' ∧
      (binary_to_javascript_const B name t).data.getLast? = some '\n' ∧
      (binary_to_go_const B name t).data.getLast? = some '\n' ∧
      (binary_to_java_const B name t).data.getLast? = some '\n') ∧
      (B ≠ [] →
        (binary_to_hex B).data.getLast? = some '\n' ∧
          (binary_to_binary B).data.getLast? = some '\n') := by
  constructor
  · refine ⟨?_, ?_, ?_, ?_, ?_, ?_, ?_, ?_⟩ <;>
      · simp only [binary_to_c_const, binary_to_c_define, binary_to_rust_const,
          binary_to_python_const, binary_to_csharp_const, binary_to_javascript_const,
          binary_to_go_const, binary_to_java_const, String.data_append, List.getLast?_append]
        rfl
  · intro hB
    have hlen : 0 < B.length := List.length_pos.2 hB
    exact ⟨rowsFrom_last (hexRow B) B.length (hexRow_last B) 0 hlen,
      rowsFrom_last (binRow B) B.length (binRow_last B) 0 hlen⟩

/-- C9 (witness): the amended statement evaluated on a one-byte input. -/
theorem c9_witness :
    (binary_to_hex [65]).data.getLast? = some '\n' ∧
      (binary_to_binary [65]).data.getLast? = some '\n' :=
  (c9_trailing_newline [65] "n" 4).2 (by decide)

/-! ## Claim C10: the grouped shape of the define output

The spec-side definitions below restate the claim: the byte literals are
grouped eight per group, every group is prefixed by the indentation block
plus four literal spaces, groups are separated by a backslash and newline,
and the first group sits on the same line as the opening brace. The claim
theorem proves the loop of binary_to_c_define equal to this shape. -/

/-- Chunking of a list into consecutive groups of eight, with fuel so the
recursion is structural; the fuel only needs to dominate the number of
groups. -/
def chunks8Aux : Nat → List Nat → List (List Nat)
  | _, [] => []
  | 0, b :: rest => [b :: rest]
  | fuel + 1, b :: rest => ((b :: rest).take 8) :: chunks8Aux fuel ((b :: rest).drop 8)

/-- Consecutive groups of eight bytes, the last group possibly shorter. -/
def chunks8 (l : List Nat) : List (List Nat) := chunks8Aux l.length l

theorem chunks8Aux_nil (f : Nat) : chunks8Aux f [] = [] := by
  cases f <;> rfl

theorem chunks8Aux_fuel :
    ∀ f1 f2 (l : List Nat), l.length ≤ 8 * f1 + 8 → l.length ≤ 8 * f2 + 8 →
      chunks8Aux f1 l = chunks8Aux f2 l := by
  intro f1
  induction f1 with
  | zero =>
    intro f2 l h1 h2
    match l, f2 with
    | [], g => rw [chunks8Aux_nil, chunks8Aux_nil]
    | b :: rest, 0 => rfl
    | b :: rest, g + 1 =>
      simp only [chunks8Aux]
      have hlen : (b :: rest).length ≤ 8 := by simpa using h1
      rw [List.take_of_length_le hlen, List.drop_eq_nil_of_le hlen, chunks8Aux_nil]
  | succ f ih =>
    intro f2 l h1 h2
    match l, f2 with
    | [], g => rw [chunks8Aux_nil, chunks8Aux_nil]
    | b :: rest, 0 =>
      simp only [chunks8Aux]
      have hlen : (b :: rest).length ≤ 8 := by simpa using h2
      rw [List.take_of_length_le hlen, List.drop_eq_nil_of_le hlen, chunks8Aux_nil]
    | b :: rest, g + 1 =>
      simp only [chunks8Aux]
      congr 1
      apply ih
      · simp only [List.length_drop, List.length_cons]
        simp only [List.length_cons] at h1
        omega
      · simp only [List.length_drop, List.length_cons]
        simp only [List.length_cons] at h2
        omega

theorem chunks8_cons (b : Nat) (rest : List Nat) :
    chunks8 (b :: rest) = ((b :: rest).take 8) :: chunks8 ((b :: rest).drop 8) := by
  show chunks8Aux (rest.length + 1) (b :: rest) = _
  simp only [chunks8Aux]
  congr 1
  apply chunks8Aux_fuel
  · simp only [List.length_drop, List.length_cons]
    omega
  · simp only [List.length_drop, List.length_cons]
    omega

theorem chunks8_ne_nil (l : List Nat) (h : l ≠ []) : chunks8 l ≠ [] := by
  match l with
  | b :: rest =>
    rw [chunks8_cons]
    exact List.cons_ne_nil _ _

/-- Render the literals of one group: every byte as a 0x literal followed
by a comma and a space, except the last byte of the final group. -/
def renderLits : List Nat → Bool → String
  | [], _ => ""
  | [b], finalGroup => "0x" ++ hex2 b ++ (if finalGroup then "" else ", ")
  | b :: b2 :: rest, finalGroup => "0x" ++ hex2 b ++ ", " ++ renderLits (b2 :: rest) finalGroup

/-- The grouped body shape the claim describes: each group prefixed by the
indentation block plus four literal spaces, groups separated by a
backslash and a newline. -/
def defineBody_spec (t : Nat) : List (List Nat) → String
  | [] => ""
  | [g] => spaces t ++ "    " ++ renderLits g true
  | g :: g2 :: gs =>
    spaces t ++ "    " ++ renderLits g false ++ "\\\n" ++ defineBody_spec t (g2 :: gs)

/-- The whole define output in the grouped shape of the claim: the size
macro line, then the value macro whose opening brace is immediately
followed, on the same line, by the first prefixed group. -/
def binary_to_c_define_spec (B : List Nat) (name : String) (t : Nat) : String :=
  "#define " ++ name ++ "_SIZE " ++ decString B.length ++ "\n" ++
    "#define " ++ name ++ " \x7b" ++ defineBody_spec t (chunks8 B) ++ "\x7d\n"

/-- Stateless per-item form of the define loop: the line prefix is emitted
exactly at indices divisible by eight. -/
def defineItems (len t : Nat) : List Nat → Nat → String
  | [], _ => ""
  | b :: rest, i =>
    (if i % 8 == 0 then spaces t ++ "    " else "") ++ "0x" ++ hex2 b ++
      (if i < len - 1 then ", " else "") ++
      (if (i + 1) % 8 == 0 && decide (i < len - 1) then "\\\n" else "") ++
      defineItems len t rest (i + 1)

/-- The stateful loop equals the stateless per-item form: the line_start
flag at the start of iteration i is exactly whether i is not divisible by
eight, as long as i plus the remaining bytes does not exceed len. -/
theorem defineLoopBody_eq_items (len t : Nat) :
    ∀ (bytes : List Nat) (i : Nat), i + bytes.length ≤ len →
      defineLoopBody len t bytes i (!(i % 8 == 0)) = defineItems len t bytes i := by
  intro bytes
  induction bytes with
  | nil => intro i h; rfl
  | cons b rest ih =>
    intro i hlen
    simp only [defineLoopBody, defineItems]
    congr 1
    · cases h8 : (i % 8 == 0) <;> simp
    · match rest with
      | [] => rfl
      | r :: rt =>
        have hcomma : i < len - 1 := by
          simp only [List.length_cons] at hlen
          omega
        have hwrap : ((i + 1) % 8 == 0 && decide (i < len - 1)) = !((i + 1) % 8 != 0) := by
          simp [hcomma, bne]
        rw [hwrap]
        have := ih (i + 1) (by simp only [List.length_cons] at hlen ⊢; omega)
        simpa using this

theorem defineItems_append (len t : Nat) :
    ∀ (l1 l2 : List Nat) (i : Nat),
      defineItems len t (l1 ++ l2) i =
        defineItems len t l1 i ++ defineItems len t l2 (i + l1.length) := by
  intro l1
  induction l1 with
  | nil =>
    intro l2 i
    apply String.ext
    simp [defineItems]
  | cons b rest ih =>
    intro l2 i
    simp only [List.cons_append, defineItems, List.length_cons, List.append_eq]
    rw [ih l2 (i + 1)]
    have harith : i + 1 + rest.length = i + (rest.length + 1) := by omega
    rw [harith]
    apply String.ext
    simp [String.data_append, List.append_assoc]

/-- Processing one group that lies strictly inside a line (the index is
not at a line start and the group fits in the line): the items render as
the group's literals followed by the wrap exactly when the group ends at a
line boundary with more bytes to come. -/
theorem defineItems_chunk (len t : Nat) :
    ∀ (g : List Nat) (i : Nat), g ≠ [] → i % 8 ≠ 0 → i % 8 + g.length ≤ 8 →
      i + g.length ≤ len →
      defineItems len t g i =
        renderLits g (decide (i + g.length = len)) ++
          (if (i + g.length) % 8 == 0 && decide (i + g.length < len) then ("\\\n" : String)
           else "") := by
  intro g
  induction g with
  | nil => intro i h; exact absurd rfl h
  | cons b g2 ih =>
    intro i hne h8 hsum hlen
    match g2, ih with
    | [], _ =>
      simp only [List.length_cons, List.length_nil, Nat.zero_add] at hsum hlen ⊢
      by_cases hfin : i + 1 = len
      · apply String.ext
        simp [defineItems, renderLits, String.data_append, apply_ite String.data,
          show ¬ i < len - 1 by omega, show ¬ i + 1 < len by omega, hfin,
          show ¬ (i % 8 == 0) = true by simpa using h8]
      · apply String.ext
        simp [defineItems, renderLits, String.data_append, apply_ite String.data,
          show i < len - 1 by omega, show i + 1 < len by omega, hfin,
          show ¬ (i % 8 == 0) = true by simpa using h8]
    | b2 :: rest, ih =>
      have hlc : (b :: b2 :: rest).length = rest.length + 2 := by simp
      rw [hlc] at hsum hlen
      have hstep : defineItems len t (b :: b2 :: rest) i =
          (if i % 8 == 0 then spaces t ++ "    " else "") ++ "0x" ++ hex2 b ++
            (if i < len - 1 then ", " else "") ++
            (if (i + 1) % 8 == 0 && decide (i < len - 1) then "\\\n" else "") ++
            defineItems len t (b2 :: rest) (i + 1) := rfl
      rw [hstep]
      rw [ih (i + 1) (List.cons_ne_nil _ _) (by omega) (by simp; omega) (by simp; omega)]
      have ha1 : i + 1 + (b2 :: rest).length = i + (rest.length + 2) := by simp; omega
      rw [ha1]
      apply String.ext
      simp [renderLits, String.data_append, apply_ite String.data, List.append_assoc,
        show i < len - 1 by omega, show ¬ (i % 8 == 0) = true by simpa using h8,
        show ¬ (i + 1) % 8 = 0 by omega, hlc]

theorem renderLits_cons (b : Nat) (g : List Nat) (f : Bool) (h : g ≠ []) :
    renderLits (b :: g) f = "0x" ++ hex2 b ++ ", " ++ renderLits g f := by
  match g with
  | g1 :: gt => rfl

/-- From a line start, the per-item form renders as the grouped shape over
the eight byte chunks. -/
theorem defineItems_chunks (len t : Nat) :
    ∀ (n : Nat) (bytes : List Nat) (s : Nat), bytes.length ≤ n → s % 8 = 0 → bytes ≠ [] →
      s + bytes.length = len →
      defineItems len t bytes s = defineBody_spec t (chunks8 bytes) := by
  intro n
  induction n with
  | zero =>
    intro bytes s h0 _ hne _
    match bytes with
    | [] => exact absurd rfl hne
    | b :: rest => simp at h0
  | succ m ih =>
    intro bytes s hn h8 hne hsum
    match bytes with
    | b :: rest =>
      have hstep : defineItems len t (b :: rest) s =
          (if s % 8 == 0 then spaces t ++ "    " else "") ++ "0x" ++ hex2 b ++
            (if s < len - 1 then ", " else "") ++
            (if (s + 1) % 8 == 0 && decide (s < len - 1) then "\\\n" else "") ++
            defineItems len t rest (s + 1) := rfl
      by_cases hsmall : (b :: rest).length ≤ 8
      · rw [chunks8_cons, List.take_of_length_le hsmall, List.drop_eq_nil_of_le hsmall]
        show _ = defineBody_spec t [b :: rest]
        match rest with
        | [] =>
          simp only [List.length_cons, List.length_nil] at hsum
          rw [hstep]
          apply String.ext
          simp [defineItems, renderLits, defineBody_spec, String.data_append,
            apply_ite String.data, h8, show ¬ s < len - 1 by omega]
        | r :: rt =>
          simp only [List.length_cons] at hsum hsmall
          rw [hstep]
          rw [defineItems_chunk len t (r :: rt) (s + 1) (List.cons_ne_nil _ _) (by omega)
            (by simp; omega) (by simp; omega)]
          have hfl : decide (s + 1 + (r :: rt).length = len) = true := by
            simp only [List.length_cons]
            simp
            omega
          rw [hfl]
          have htr : ((s + 1 + (r :: rt).length) % 8 == 0 &&
              decide (s + 1 + (r :: rt).length < len)) = false := by
            simp only [List.length_cons]
            simp
            omega
          rw [htr]
          apply String.ext
          simp [defineBody_spec, String.data_append, apply_ite String.data, h8,
            renderLits_cons b (r :: rt) true (List.cons_ne_nil _ _),
            show s < len - 1 by omega, show ¬ (s + 1) % 8 = 0 by omega]
      · -- at least nine bytes: the first chunk is full and more follow
        have hlen9 : 9 ≤ (b :: rest).length := by omega
        have hrl : 8 ≤ rest.length := by
          simp only [List.length_cons] at hlen9
          omega
        have hsum2 : s + rest.length + 1 = len := by
          simp only [List.length_cons] at hsum
          omega
        have hr2ne : (b :: rest).drop 8 ≠ [] := by
          apply List.ne_nil_of_length_pos
          simp only [List.length_drop]
          omega
        rw [chunks8_cons]
        obtain ⟨c2, cs2, hc2⟩ : ∃ x xs, chunks8 ((b :: rest).drop 8) = x :: xs := by
          cases hh : chunks8 ((b :: rest).drop 8) with
          | nil => exact absurd hh (chunks8_ne_nil _ hr2ne)
          | cons x xs => exact ⟨x, xs, rfl⟩
        rw [hc2]
        show _ = spaces t ++ "    " ++ renderLits ((b :: rest).take 8) false ++ "\\\n" ++
          defineBody_spec t (c2 :: cs2)
        rw [← hc2]
        have hsplit : defineItems len t (b :: rest) s =
            defineItems len t ((b :: rest).take 8) s ++
              defineItems len t ((b :: rest).drop 8) (s + 8) := by
          have h1 := defineItems_append len t ((b :: rest).take 8) ((b :: rest).drop 8) s
          rw [List.take_append_drop] at h1
          rw [h1, List.length_take]
          congr 2
          omega
        rw [hsplit]
        have htake : (b :: rest).take 8 = b :: rest.take 7 := by
          rw [List.take_succ_cons]
        have htk7 : (rest.take 7).length = 7 := by
          rw [List.length_take]
          simp only [List.length_cons] at hlen9
          omega
        have htkne : rest.take 7 ≠ [] := by
          apply List.ne_nil_of_length_pos
          omega
        have hfirst : defineItems len t ((b :: rest).take 8) s =
            spaces t ++ "    " ++ renderLits ((b :: rest).take 8) false ++ "\\\n" := by
          rw [htake]
          have hstep2 : defineItems len t (b :: rest.take 7) s =
              (if s % 8 == 0 then spaces t ++ "    " else "") ++ "0x" ++ hex2 b ++
                (if s < len - 1 then ", " else "") ++
                (if (s + 1) % 8 == 0 && decide (s < len - 1) then "\\\n" else "") ++
                defineItems len t (rest.take 7) (s + 1) := rfl
          rw [hstep2]
          rw [defineItems_chunk len t (rest.take 7) (s + 1) htkne (by omega)
            (by rw [htk7]; omega) (by rw [htk7]; omega)]
          have hfl2 : decide (s + 1 + (rest.take 7).length = len) = false := by
            rw [htk7]
            simp
            omega
          rw [hfl2]
          have htr2 : ((s + 1 + (rest.take 7).length) % 8 == 0 &&
              decide (s + 1 + (rest.take 7).length < len)) = true := by
            rw [htk7]
            simp
            omega
          rw [htr2]
          apply String.ext
          simp [String.data_append, apply_ite String.data, h8,
            renderLits_cons b (rest.take 7) false htkne,
            show s < len - 1 by omega,
            show ¬ (s + 1) % 8 = 0 by omega]
        rw [hfirst]
        have hrec : defineItems len t ((b :: rest).drop 8) (s + 8) =
            defineBody_spec t (chunks8 ((b :: rest).drop 8)) := by
          refine ih ((b :: rest).drop 8) (s + 8) ?_ ?_ hr2ne ?_
          · simp only [List.length_drop, List.length_cons]
            simp only [List.length_cons] at hn
            omega
          · omega
          · simp only [List.length_drop, List.length_cons]
            omega
        rw [hrec]

/-- C10: for every nonempty byte sequence the define output equals the
grouped shape: every group of byte literals is prefixed by the indentation
block plus four literal spaces, and the first group sits on the same line
as, and immediately after, the opening brace of the value macro. -/
theorem c10_define_grouped (B : List Nat) (name : String) (t : Nat) (hB : B ≠ []) :
    binary_to_c_define B name t = binary_to_c_define_spec B name t := by
  unfold binary_to_c_define binary_to_c_define_spec
  congr 1
  congr 1
  have h0 : defineLoopBody B.length t B 0 false = defineItems B.length t B 0 := by
    have h := defineLoopBody_eq_items B.length t B 0 (by omega)
    simpa using h
  rw [h0]
  exact defineItems_chunks B.length t B.length B 0 (le_refl _) (by omega) hB (by omega)

/-- C10 (witness): the grouped shape evaluated at a concrete ten-byte
input. -/
theorem c10_witness :
    binary_to_c_define (List.range 10) "n" 2 =
      binary_to_c_define_spec (List.range 10) "n" 2 :=
  c10_define_grouped (List.range 10) "n" 2 (by decide)

/-! ## Claim C8: totality

The checked variants below re-run each formatter with every operation
that can fail in Rust made explicit: the usize subtraction len - 1 goes
through checkedSub (none models the underflow panic of debug builds) and
every index into the byte slice goes through the partial lookup (none
models the out-of-bounds panic). The claim theorem proves each checked
variant returns some of the total formatter's output on every input. -/

/-- Guarded natural subtraction: none models the usize underflow panic. -/
def checkedSub (a b : Nat) : Option Nat := if b ≤ a then some (a - b) else none

/-- The shared array-style loop with the subtraction checked. -/
def constLoopBodyChecked (len t : Nat) : List Nat → Nat → Option String
  | [], _ => some ""
  | b :: rest, i => do
    let lm1 ← checkedSub len 1
    let tail ← constLoopBodyChecked len t rest (i + 1)
    pure ("0x" ++ hex2 b ++ (if i < lm1 then ", " else "") ++
      (if i % 16 == 15 then spaces t ++ "\n" else "") ++ tail)

/-- The define loop with both subtractions checked. -/
def defineLoopBodyChecked (len t : Nat) : List Nat → Nat → Bool → Option String
  | [], _, _ => some ""
  | b :: rest, i, line_start => do
    let lm1 ← checkedSub len 1
    let lm2 ← checkedSub len 1
    let wrap : Bool := (i + 1) % 8 == 0 && decide (i < lm2)
    let tail ← defineLoopBodyChecked len t rest (i + 1) (!wrap)
    pure ((if line_start then "" else spaces t ++ "    ") ++ "0x" ++ hex2 b ++
      (if i < lm1 then ", " else "") ++ (if wrap then "\\\n" else "") ++ tail)

/-- A hex dump byte slot with the index lookup partial. -/
def hexSlotChecked (B : List Nat) (i j : Nat) : Option String := do
  let s ← if i + j < B.length then (B.get? (i + j)).map (fun b => hex2 b ++ " ")
    else some "   "
  pure (s ++ (if j % 4 == 3 then " " else ""))

/-- A binary dump byte slot with the index lookup partial. -/
def binSlotChecked (B : List Nat) (i j : Nat) : Option String := do
  let s ← if i + j < B.length then (B.get? (i + j)).map (fun b => bin8 b ++ " ")
    else some "         "
  pure (s ++ (if j % 4 == 3 then " " else ""))

/-- An ASCII column slot with the index lookup partial. -/
def asciiSlotChecked (B : List Nat) (i j : Nat) : Option String :=
  if i + j < B.length then
    (B.get? (i + j)).map
      (fun c => if 0x20 ≤ c ∧ c ≤ 0x7e then String.singleton (Char.ofNat c) else ".")
  else some " "

/-- Join a list of partial slots into one string, failing if any fails. -/
def slotsJoinChecked (slot : Nat → Option String) : List Nat → Option String
  | [] => some ""
  | j :: rest => do
    let s ← slot j
    let r ← slotsJoinChecked slot rest
    pure (s ++ r)

/-- A hex dump row with partial slots. -/
def hexRowChecked (B : List Nat) (i : Nat) : Option String := do
  let slots ← slotsJoinChecked (hexSlotChecked B i) (List.range 16)
  let ascii ← slotsJoinChecked (asciiSlotChecked B i) (List.range 16)
  pure (hex8 i ++ "  " ++ slots ++ " |" ++ ascii ++ "|\n")

/-- A binary dump row with partial slots. -/
def binRowChecked (B : List Nat) (i : Nat) : Option String := do
  let slots ← slotsJoinChecked (binSlotChecked B i) (List.range 16)
  let ascii ← slotsJoinChecked (asciiSlotChecked B i) (List.range 16)
  pure (hex8 i ++ "  " ++ slots ++ " |" ++ ascii ++ "|\n")

/-- The dump while loop over partial rows. -/
def rowsAuxChecked (row : Nat → Option String) (len : Nat) : Nat → Nat → Option String
  | 0, _ => some ""
  | fuel + 1, i =>
    if i < len then do
      let r ← row i
      let rest ← rowsAuxChecked row len fuel (i + 16)
      pure (r ++ rest)
    else some ""

def binary_to_hex_checked (B : List Nat) : Option String :=
  rowsAuxChecked (hexRowChecked B) B.length B.length 0

def binary_to_binary_checked (B : List Nat) : Option String :=
  rowsAuxChecked (binRowChecked B) B.length B.length 0

def binary_to_c_const_checked (B : List Nat) (name : String) (t : Nat) : Option String :=
  (constLoopBodyChecked B.length t B 0).map
    (fun body => "const unsigned char " ++ name ++ "[] = \x7b\n" ++ spaces t ++ body ++
      "\n\x7d;\n")

def binary_to_rust_const_checked (B : List Nat) (name : String) (t : Nat) : Option String :=
  (constLoopBodyChecked B.length t B 0).map
    (fun body => "const " ++ name ++ ": [u8; " ++ decString B.length ++ "] = [\n" ++
      spaces t ++ body ++ "\n];\n")

def binary_to_python_const_checked (B : List Nat) (name : String) (t : Nat) : Option String :=
  (constLoopBodyChecked B.length t B 0).map
    (fun body => name ++ " = bytes([\n" ++ spaces t ++ body ++ "\n])\n")

def binary_to_csharp_const_checked (B : List Nat) (name : String) (t : Nat) : Option String :=
  (constLoopBodyChecked B.length t B 0).map
    (fun body => "public static readonly byte[] " ++ name ++ " = new byte[] \x7b\n" ++
      spaces t ++ body ++ "\n\x7d;\n")

def binary_to_javascript_const_checked (B : List Nat) (name : String) (t : Nat) :
    Option String :=
  (constLoopBodyChecked B.length t B 0).map
    (fun body => "const " ++ name ++ " = new Uint8Array([\n" ++ spaces t ++ body ++ "\n]);\n")

def binary_to_go_const_checked (B : List Nat) (name : String) (t : Nat) : Option String :=
  (constLoopBodyChecked B.length t B 0).map
    (fun body => "var " ++ name ++ " = []byte\x7b\n" ++ spaces t ++ body ++ "\n\x7d\n")

def binary_to_java_const_checked (B : List Nat) (name : String) (t : Nat) : Option String :=
  (constLoopBodyChecked B.length t B 0).map
    (fun body => "public static final byte[] " ++ name ++ " = new byte[] \x7b\n" ++
      spaces t ++ body ++ "\n\x7d;\n")

def binary_to_c_define_checked (B : List Nat) (name : String) (t : Nat) : Option String :=
  (defineLoopBodyChecked B.length t B 0 false).map
    (fun body => "#define " ++ name ++ "_SIZE " ++ decString B.length ++ "\n" ++
      "#define " ++ name ++ " \x7b" ++ body ++ "\x7d\n")

theorem constLoopBodyChecked_eq (len t : Nat) (hlen : 1 ≤ len) :
    ∀ (bytes : List Nat) (i : Nat),
      constLoopBodyChecked len t bytes i = some (constLoopBody len t bytes i) := by
  intro bytes
  induction bytes with
  | nil => intro i; rfl
  | cons b rest ih =>
    intro i
    simp only [constLoopBodyChecked, constLoopBody, checkedSub, if_pos hlen, ih,
      Option.bind_eq_bind, Option.some_bind]
    rfl

theorem defineLoopBodyChecked_eq (len t : Nat) (hlen : 1 ≤ len) :
    ∀ (bytes : List Nat) (i : Nat) (ls : Bool),
      defineLoopBodyChecked len t bytes i ls = some (defineLoopBody len t bytes i ls) := by
  intro bytes
  induction bytes with
  | nil => intro i ls; rfl
  | cons b rest ih =>
    intro i ls
    simp only [defineLoopBodyChecked, defineLoopBody, checkedSub, if_pos hlen, ih,
      Option.bind_eq_bind, Option.some_bind]
    rfl

theorem getD_of_lt (B : List Nat) (n : Nat) (h : n < B.length) :
    B.getD n 0 = B.get ⟨n, h⟩ := by
  rw [List.getD_eq_getElem?_getD, List.getElem?_eq_getElem h, Option.getD_some,
    List.get_eq_getElem]

theorem hexSlotChecked_eq (B : List Nat) (i j : Nat) :
    hexSlotChecked B i j = some (hexSlot B i j) := by
  unfold hexSlotChecked hexSlot
  by_cases h : i + j < B.length
  · rw [if_pos h, if_pos h, List.get?_eq_get h, getD_of_lt B _ h]
    rfl
  · rw [if_neg h, if_neg h]
    rfl

theorem binSlotChecked_eq (B : List Nat) (i j : Nat) :
    binSlotChecked B i j = some (binSlot B i j) := by
  unfold binSlotChecked binSlot
  by_cases h : i + j < B.length
  · rw [if_pos h, if_pos h, List.get?_eq_get h, getD_of_lt B _ h]
    rfl
  · rw [if_neg h, if_neg h]
    rfl

theorem asciiSlotChecked_eq (B : List Nat) (i j : Nat) :
    asciiSlotChecked B i j = some (asciiSlot B i j) := by
  unfold asciiSlotChecked asciiSlot
  by_cases h : i + j < B.length
  · rw [if_pos h, if_pos h, List.get?_eq_get h, getD_of_lt B _ h]
    rfl
  · rw [if_neg h, if_neg h]

theorem slotsJoinChecked_eq (slotp : Nat → Option String) (slot : Nat → String) :
    ∀ (l : List Nat), (∀ j ∈ l, slotp j = some (slot j)) →
      slotsJoinChecked slotp l = some (String.join (l.map slot)) := by
  intro l
  induction l with
  | nil => intro h; rfl
  | cons j rest ih =>
    intro h
    simp only [slotsJoinChecked, h j (List.mem_cons_self j rest),
      ih (fun k hk => h k (List.mem_cons_of_mem j hk)), List.map_cons, join_cons,
      Option.bind_eq_bind, Option.some_bind]
    rfl

theorem hexRowChecked_eq (B : List Nat) (i : Nat) :
    hexRowChecked B i = some (hexRow B i) := by
  unfold hexRowChecked
  rw [slotsJoinChecked_eq _ (hexSlot B i) _ (fun j _ => hexSlotChecked_eq B i j),
    slotsJoinChecked_eq _ (asciiSlot B i) _ (fun j _ => asciiSlotChecked_eq B i j)]
  simp only [Option.bind_eq_bind, Option.some_bind]
  congr 1
  apply String.ext
  simp [hexRow, hexRowRest, String.data_append, List.append_assoc]

theorem binRowChecked_eq (B : List Nat) (i : Nat) :
    binRowChecked B i = some (binRow B i) := by
  unfold binRowChecked
  rw [slotsJoinChecked_eq _ (binSlot B i) _ (fun j _ => binSlotChecked_eq B i j),
    slotsJoinChecked_eq _ (asciiSlot B i) _ (fun j _ => asciiSlotChecked_eq B i j)]
  simp only [Option.bind_eq_bind, Option.some_bind]
  congr 1
  apply String.ext
  simp [binRow, binRowRest, String.data_append, List.append_assoc]

theorem rowsAuxChecked_eq (rowp : Nat → Option String) (row : Nat → String) (len : Nat)
    (h : ∀ i, rowp i = some (row i)) :
    ∀ (fuel i : Nat), rowsAuxChecked rowp len fuel i = some (rowsAux row len fuel i) := by
  intro fuel
  induction fuel with
  | zero => intro i; rfl
  | succ f ih =>
    intro i
    simp only [rowsAuxChecked, rowsAux]
    by_cases hi : i < len
    · rw [if_pos hi, if_pos hi]
      simp only [h i, ih (i + 16), Option.bind_eq_bind, Option.some_bind]
      rfl
    · rw [if_neg hi, if_neg hi]

/-- C8: every formatter is total. Each checked variant, in which the
usize subtraction len - 1 is guarded against underflow and every index
into the byte slice is a partial lookup, returns some of the total
formatter's output on every input: no panic path is ever taken, because
the loop body holding len - 1 runs only when the sequence is nonempty and
every index is accessed under its bound check. -/
theorem c8_totality (B : List Nat) (name : String) (t : Nat) :
    binary_to_hex_checked B = some (binary_to_hex B) ∧
      binary_to_binary_checked B = some (binary_to_binary B) ∧
      binary_to_c_const_checked B name t = some (binary_to_c_const B name t) ∧
      binary_to_c_define_checked B name t = some (binary_to_c_define B name t) ∧
      binary_to_rust_const_checked B name t = some (binary_to_rust_const B name t) ∧
      binary_to_python_const_checked B name t = some (binary_to_python_const B name t) ∧
      binary_to_csharp_const_checked B name t = some (binary_to_csharp_const B name t) ∧
      binary_to_javascript_const_checked B name t =
        some (binary_to_javascript_const B name t) ∧
      binary_to_go_const_checked B name t = some (binary_to_go_const B name t) ∧
      binary_to_java_const_checked B name t = some (binary_to_java_const B name t) := by
  have hcl : constLoopBodyChecked B.length t B 0 = some (constLoopBody B.length t B 0) := by
    match B with
    | [] => rfl
    | b :: rest => exact constLoopBodyChecked_eq _ t (by simp) (b :: rest) 0
  have hdl : defineLoopBodyChecked B.length t B 0 false =
      some (defineLoopBody B.length t B 0 false) := by
    match B with
    | [] => rfl
    | b :: rest => exact defineLoopBodyChecked_eq _ t (by simp) (b :: rest) 0 false
  refine ⟨?_, ?_, ?_, ?_, ?_, ?_, ?_, ?_, ?_, ?_⟩
  · exact rowsAuxChecked_eq _ _ _ (hexRowChecked_eq B) B.length 0
  · exact rowsAuxChecked_eq _ _ _ (binRowChecked_eq B) B.length 0
  · simp [binary_to_c_const_checked, binary_to_c_const, hcl]
  · simp [binary_to_c_define_checked, binary_to_c_define, hdl]
  · simp [binary_to_rust_const_checked, binary_to_rust_const, hcl]
  · simp [binary_to_python_const_checked, binary_to_python_const, hcl]
  · simp [binary_to_csharp_const_checked, binary_to_csharp_const, hcl]
  · simp [binary_to_javascript_const_checked, binary_to_javascript_const, hcl]
  · simp [binary_to_go_const_checked, binary_to_go_const, hcl]
  · simp [binary_to_java_const_checked, binary_to_java_const, hcl]

/-! ## Claim C3: row structure of the dump formatters -/

theorem digitsBase_length_le (base : Nat) (hbase : 2 ≤ base) :
    ∀ (k n : Nat), 1 ≤ k → n < base ^ k → (digitsBase base n).length ≤ k := by
  intro k
  induction k with
  | zero => intro n h; omega
  | succ m ih =>
    intro n _ hn
    rw [digitsBase_eq base n hbase]
    by_cases hnb : n < base
    · rw [if_pos hnb]
      simp
    · rw [if_neg hnb]
      rw [List.length_append, List.length_singleton]
      have hm : 1 ≤ m := by
        rcases Nat.eq_zero_or_pos m with h0 | h1
        · subst h0
          have hb1 : base ^ (0 + 1) = base := by ring
          rw [hb1] at hn
          exact absurd hn hnb
        · exact h1
      have hdiv : n / base < base ^ m := by
        rw [Nat.div_lt_iff_lt_mul (by omega)]
        calc n < base ^ (m + 1) := hn
        _ = base ^ m * base := by ring
      have := ih (n / base) hm hdiv
      omega

theorem hex8_length (n : Nat) (h : n < 2 ^ 32) : (hex8 n).length = 8 := by
  have h16 : n < 16 ^ 8 := by
    have : (16 : Nat) ^ 8 = 2 ^ 32 := by norm_num
    omega
  have hle : (digitsBase 16 n).length ≤ 8 := digitsBase_length_le 16 (by omega) 8 n (by omega) h16
  show (String.mk (List.replicate (8 - (hexChars n).length) '0' ++ hexChars n)).length = 8
  rw [String.length_mk, List.length_append, List.length_replicate]
  have : (hexChars n).length ≤ 8 := hle
  omega

theorem bin8_length (b : Nat) : (bin8 b).length = 8 := by
  have hlt : b % 256 < 2 ^ 8 := by
    have := Nat.mod_lt b (y := 256) (by omega)
    omega
  have hle : (binChars (b % 256)).length ≤ 8 :=
    digitsBase_length_le 2 (by omega) 8 (b % 256) (by omega) hlt
  show (String.mk (List.replicate (8 - (binChars (b % 256)).length) '0' ++
    binChars (b % 256))).length = 8
  rw [String.length_mk, List.length_append, List.length_replicate]
  omega

theorem join_length (l : List String) :
    (String.join l).length = (l.map String.length).sum := by
  show (String.join l).data.length = _
  rw [join_data, List.length_flatten, List.map_map]
  rfl

theorem hexSlot_length (B : List Nat) (i j : Nat) :
    (hexSlot B i j).length = if j % 4 == 3 then 4 else 3 := by
  unfold hexSlot
  rw [String.length_append]
  by_cases hb : i + j < B.length
  · rw [if_pos hb]
    by_cases h4 : (j % 4 == 3) = true
    · rw [if_pos h4, if_pos h4]
      rfl
    · rw [if_neg h4, if_neg h4]
      rfl
  · rw [if_neg hb]
    by_cases h4 : (j % 4 == 3) = true
    · rw [if_pos h4, if_pos h4]
      rfl
    · rw [if_neg h4, if_neg h4]
      rfl

theorem binSlot_length (B : List Nat) (i j : Nat) :
    (binSlot B i j).length = if j % 4 == 3 then 10 else 9 := by
  unfold binSlot
  rw [String.length_append]
  by_cases hb : i + j < B.length
  · rw [if_pos hb, String.length_append, bin8_length]
    by_cases h4 : (j % 4 == 3) = true
    · rw [if_pos h4, if_pos h4]
      rfl
    · rw [if_neg h4, if_neg h4]
      rfl
  · rw [if_neg hb]
    by_cases h4 : (j % 4 == 3) = true
    · rw [if_pos h4, if_pos h4]
      rfl
    · rw [if_neg h4, if_neg h4]
      rfl

theorem asciiSlot_length (B : List Nat) (i j : Nat) : (asciiSlot B i j).length = 1 := by
  unfold asciiSlot
  by_cases hb : i + j < B.length
  · rw [if_pos hb]
    by_cases hp : 0x20 ≤ B.getD (i + j) 0 ∧ B.getD (i + j) 0 ≤ 0x7e
    · rw [if_pos hp]
      exact String.length_singleton _
    · rw [if_neg hp]
      rfl
  · rw [if_neg hb]
    rfl

theorem hexSlots_length (B : List Nat) (i : Nat) :
    (String.join ((List.range 16).map (hexSlot B i))).length = 52 := by
  rw [join_length, List.map_map]
  rw [List.map_congr_left
    (fun j _ => show (String.length ∘ hexSlot B i) j = if j % 4 == 3 then 4 else 3 from
      hexSlot_length B i j)]
  decide

theorem binSlots_length (B : List Nat) (i : Nat) :
    (String.join ((List.range 16).map (binSlot B i))).length = 148 := by
  rw [join_length, List.map_map]
  rw [List.map_congr_left
    (fun j _ => show (String.length ∘ binSlot B i) j = if j % 4 == 3 then 10 else 9 from
      binSlot_length B i j)]
  decide

theorem asciiSlots_length (B : List Nat) (i : Nat) :
    (String.join ((List.range 16).map (asciiSlot B i))).length = 16 := by
  rw [join_length, List.map_map]
  rw [List.map_congr_left
    (fun j _ => show (String.length ∘ asciiSlot B i) j = 1 from asciiSlot_length B i j)]
  decide

theorem hexRow_length (B : List Nat) (i : Nat) :
    (hexRow B i).length = (hex8 i).length + 74 := by
  unfold hexRow hexRowRest
  simp only [String.length_append, hexSlots_length, asciiSlots_length]
  rfl

theorem binRow_length (B : List Nat) (i : Nat) :
    (binRow B i).length = (hex8 i).length + 170 := by
  unfold binRow binRowRest
  simp only [String.length_append, binSlots_length, asciiSlots_length]
  rfl

theorem count_nl_zero_of (s : String) (h : ∀ c ∈ s.data, c ≠ '\n') :
    s.data.count '\n' = 0 :=
  List.count_eq_zero.2 (fun hc => h _ hc rfl)

theorem hex8_no_nl (n : Nat) : ∀ c ∈ (hex8 n).data, c ≠ '\n' := by
  intro c hc
  rcases List.mem_append.1 hc with h | h
  · rw [List.eq_of_mem_replicate h]
    decide
  · exact isHexDig_ne (digitsBase_isHexDig 16 (by omega) (by omega) n c h) (by decide)

theorem hex2_no_nl (b : Nat) : ∀ c ∈ (hex2 b).data, c ≠ '\n' := by
  intro c hc
  have hd : (hex2 b).data = [Nat.digitChar (b % 256 / 16), Nat.digitChar (b % 16)] := rfl
  rw [hd] at hc
  have : c = Nat.digitChar (b % 256 / 16) ∨ c = Nat.digitChar (b % 16) := by
    simpa using hc
  rcases this with rfl | rfl
  · exact isHexDig_ne (isHexDig_digitChar _ (by omega)) (by decide)
  · exact isHexDig_ne (isHexDig_digitChar _ (by omega)) (by decide)

theorem bin8_no_nl (b : Nat) : ∀ c ∈ (bin8 b).data, c ≠ '\n' := by
  intro c hc
  rcases List.mem_append.1 hc with h | h
  · rw [List.eq_of_mem_replicate h]
    decide
  · exact isHexDig_ne (digitsBase_isHexDig 2 (by omega) (by omega) _ c h) (by decide)

theorem hexSlot_no_nl (B : List Nat) (i j : Nat) :
    ∀ c ∈ (hexSlot B i j).data, c ≠ '\n' := by
  intro c hc
  unfold hexSlot at hc
  rw [String.data_append] at hc
  rcases List.mem_append.1 hc with h | h
  · split at h
    · rw [String.data_append] at h
      rcases List.mem_append.1 h with h2 | h2
      · exact hex2_no_nl _ c h2
      · have : c = ' ' := by simpa using h2
        rw [this]; decide
    · have : c = ' ' := by
        have h3 : ("   " : String).data = [' ', ' ', ' '] := rfl
        rw [h3] at h
        simpa using h
      rw [this]; decide
  · split at h
    · have : c = ' ' := by simpa using h
      rw [this]; decide
    · simp at h

theorem binSlot_no_nl (B : List Nat) (i j : Nat) :
    ∀ c ∈ (binSlot B i j).data, c ≠ '\n' := by
  intro c hc
  unfold binSlot at hc
  rw [String.data_append] at hc
  rcases List.mem_append.1 hc with h | h
  · split at h
    · rw [String.data_append] at h
      rcases List.mem_append.1 h with h2 | h2
      · exact bin8_no_nl _ c h2
      · have : c = ' ' := by simpa using h2
        rw [this]; decide
    · have : c = ' ' := by
        have h3 : ("         " : String).data = List.replicate 9 ' ' := rfl
        rw [h3] at h
        exact List.eq_of_mem_replicate h
      rw [this]; decide
  · split at h
    · have : c = ' ' := by simpa using h
      rw [this]; decide
    · simp at h

theorem asciiSlot_no_nl (B : List Nat) (i j : Nat) :
    ∀ c ∈ (asciiSlot B i j).data, c ≠ '\n' := by
  intro c hc
  unfold asciiSlot at hc
  split at hc
  · split at hc
    · rename_i hp
      rw [String.data_singleton] at hc
      have hce : c = Char.ofNat (B.getD (i + j) 0) := by simpa using hc
      rw [hce]
      intro heq
      have htn : (Char.ofNat (B.getD (i + j) 0)).toNat = B.getD (i + j) 0 :=
        char_toNat_ofNat _ (by omega)
      rw [heq] at htn
      have : ('\n').toNat = 10 := rfl
      omega
    · have : c = '.' := by simpa using hc
      rw [this]; decide
  · have : c = ' ' := by simpa using hc
    rw [this]; decide

theorem count_nl_join (l : List String) (h : ∀ s ∈ l, ∀ c ∈ s.data, c ≠ '\n') :
    (String.join l).data.count '\n' = 0 := by
  rw [join_data, List.count_flatten]
  apply List.sum_eq_zero
  intro x hx
  simp only [List.map_map, List.mem_map] at hx
  obtain ⟨s, hs, rfl⟩ := hx
  exact count_nl_zero_of s (h s hs)

theorem hexRow_count (B : List Nat) (i : Nat) : (hexRow B i).data.count '\n' = 1 := by
  simp only [hexRow, hexRowRest, String.data_append, List.count_append]
  rw [count_nl_zero_of _ (hex8_no_nl i),
    count_nl_join _ (fun s hs => by
      simp only [List.mem_map] at hs
      obtain ⟨j, hj, rfl⟩ := hs
      exact hexSlot_no_nl B i j),
    count_nl_join _ (fun s hs => by
      simp only [List.mem_map] at hs
      obtain ⟨j, hj, rfl⟩ := hs
      exact asciiSlot_no_nl B i j)]
  decide

theorem binRow_count (B : List Nat) (i : Nat) : (binRow B i).data.count '\n' = 1 := by
  simp only [binRow, binRowRest, String.data_append, List.count_append]
  rw [count_nl_zero_of _ (hex8_no_nl i),
    count_nl_join _ (fun s hs => by
      simp only [List.mem_map] at hs
      obtain ⟨j, hj, rfl⟩ := hs
      exact binSlot_no_nl B i j),
    count_nl_join _ (fun s hs => by
      simp only [List.mem_map] at hs
      obtain ⟨j, hj, rfl⟩ := hs
      exact asciiSlot_no_nl B i j)]
  decide

/-- The hex dump is the concatenation of one row per 16-byte block. -/
theorem binary_to_hex_join (B : List Nat) :
    binary_to_hex B =
      String.join ((List.range ((B.length + 15) / 16)).map (fun r => hexRow B (16 * r))) := by
  show rowsFrom (hexRow B) B.length 0 = _
  have h := rowsFrom_join (hexRow B) B.length ((B.length + 15) / 16) 0 (by omega)
  rw [show (16 : Nat) * 0 = 0 from rfl] at h
  rw [h]
  congr 1
  apply List.map_congr_left
  intro r _
  congr 1
  omega

/-- The binary dump is the concatenation of one row per 16-byte block. -/
theorem binary_to_binary_join (B : List Nat) :
    binary_to_binary B =
      String.join ((List.range ((B.length + 15) / 16)).map (fun r => binRow B (16 * r))) := by
  show rowsFrom (binRow B) B.length 0 = _
  have h := rowsFrom_join (binRow B) B.length ((B.length + 15) / 16) 0 (by omega)
  rw [show (16 : Nat) * 0 = 0 from rfl] at h
  rw [h]
  congr 1
  apply List.map_congr_left
  intro r _
  congr 1
  omega

/-- C3 (counterexample): on an input longer than 2 to the 32 bytes the
offsets past 2 to the 32 print with nine hex digits, so the dump holds
rows of different character lengths (82 and 83) and not every row begins
with an 8-digit offset; the third conjunct shows these really are the rows
of the output. -/
theorem c3_counterexample :
    (hexRow (List.replicate (2 ^ 32 + 1) 0) (16 * 0)).length = 82 ∧
      (hexRow (List.replicate (2 ^ 32 + 1) 0) (16 * 2 ^ 28)).length = 83 ∧
      binary_to_hex (List.replicate (2 ^ 32 + 1) 0) =
        String.join ((List.range (2 ^ 28 + 1)).map
          (fun r => hexRow (List.replicate (2 ^ 32 + 1) 0) (16 * r))) := by
  refine ⟨?_, ?_, ?_⟩
  · rw [hexRow_length, hex8_length (16 * 0) (by norm_num)]
  · rw [hexRow_length]
    have h9 : (hex8 (16 * 2 ^ 28)).length = 9 := by decide
    omega
  · have hL : (List.replicate (2 ^ 32 + 1) (0 : Nat)).length = 2 ^ 32 + 1 :=
      List.length_replicate _ _
    rw [binary_to_hex_join, hL]
    norm_num

/-- C3 (amended): provided the input is at most 2 to the 32 bytes long,
each dump is exactly the concatenation of ceil(len/16) rows (the empty
string for empty input); every row begins with the 8-hex-digit zero-padded
offset of its first byte followed by two spaces and the sixteen fixed-width
byte slots; rows have constant length 82 (hex) and 178 (binary); and every
row holds exactly one newline, at its end. -/
theorem c3_rows_amended (B : List Nat) (hlen : B.length ≤ 2 ^ 32) :
    (binary_to_hex B =
        String.join ((List.range ((B.length + 15) / 16)).map (fun r => hexRow B (16 * r))) ∧
      binary_to_binary B =
        String.join ((List.range ((B.length + 15) / 16)).map (fun r => binRow B (16 * r)))) ∧
      (B = [] → binary_to_hex B = "" ∧ binary_to_binary B = "") ∧
      ∀ r ∈ List.range ((B.length + 15) / 16),
        (hexRow B (16 * r) = hex8 (16 * r) ++ "  " ++ hexRowRest B (16 * r) ∧
          binRow B (16 * r) = hex8 (16 * r) ++ "  " ++ binRowRest B (16 * r) ∧
          (hex8 (16 * r)).length = 8) ∧
        ((hexRow B (16 * r)).length = 82 ∧ (binRow B (16 * r)).length = 178) ∧
        ((hexRow B (16 * r)).data.count '\n' = 1 ∧
          (hexRow B (16 * r)).data.getLast? = some '\n') ∧
        ((binRow B (16 * r)).data.count '\n' = 1 ∧
          (binRow B (16 * r)).data.getLast? = some '\n') := by
  refine ⟨⟨binary_to_hex_join B, binary_to_binary_join B⟩, ?_, ?_⟩
  · intro hB
    subst hB
    exact ⟨rfl, rfl⟩
  · intro r hr
    simp only [List.mem_range] at hr
    have hoff : 16 * r < 2 ^ 32 := by omega
    refine ⟨⟨rfl, rfl, hex8_length _ hoff⟩, ⟨?_, ?_⟩,
      ⟨hexRow_count B _, hexRow_last B _⟩, ⟨binRow_count B _, binRow_last B _⟩⟩
    · rw [hexRow_length, hex8_length _ hoff]
    · rw [binRow_length, hex8_length _ hoff]

/-- C3 (witness): the amended statement evaluated on a one-byte input. -/
theorem c3_witness :
    binary_to_hex [65] = String.join ((List.range 1).map (fun r => hexRow [65] (16 * r))) ∧
      (hexRow [65] (16 * 0)).length = 82 := by
  have h := c3_rows_amended [65] (by norm_num)
  exact ⟨h.1.1, ((h.2.2 0 (by decide)).2.1).1⟩

end Bin2Const
